import Mathlib

/-!
Verification development for the `semdiff` comparison engine.

The definitions below are a shallow embedding of the Rust sources:

* `semdiff-core/src/lib.rs` — tree traversal, pairing engine, differ dispatch
  (`calc_diff`, `calc_diff_inner`, `run_diff`, `run_added`, `run_deleted`,
  `AppendedName`, `DiffAndReport`);
* `semdiff-differ-binary/src/lib.rs` — `BinaryDiffCalculator`;
* `semdiff-differ-text/src/lib.rs` — `TextDiffCalculator`, `is_text_file`;
* `semdiff-differ-json/src/lib.rs` — `JsonDiffCalculator`, `json_diff`;
* `semdiff-differ-image/src/lib.rs` — `ImageDiffCalculator`;
* `semdiff-differ-audio/src/lib.rs` — `AudioDiffCalculator` and its metrics.

Strings are modelled as lists of characters (`Str`); Rust compares UTF-8
byte sequences, which coincides with lexicographic comparison of the
code-point sequence for valid UTF-8.  Machine floats in the image and
audio differs are idealised by exact reals; `f32::INFINITY` sentinels are
modelled with `Option`.
-/

namespace Semdiff

/-- Strings as code-point lists (Rust `String` both as names and as the path
accumulator). -/
abbrev Str := List Char

/-- Lexicographic comparison, mirroring Rust `str::cmp` (byte order on UTF-8
equals code-point order). -/
def strCmp : Str → Str → Ordering
  | [], [] => .eq
  | [], _ :: _ => .lt
  | _ :: _, [] => .gt
  | a :: as, b :: bs =>
    if a < b then .lt else if b < a then .gt else strCmp as bs

/-!
## Tree model

`TreeM` is the pure counterpart of a `NodeTraverse`/`LeafTraverse` instance
(`TraversalNode` in `semdiff-core`).  A `badNode` is a directory whose
`children()` call fails with a traversal error; this is how fallible
traversal is represented in the embedding.
-/

inductive TreeM (α : Type) where
  | node (name : Str) (children : List (TreeM α))
  | badNode (name : Str)
  | leaf (name : Str) (value : α)

def TreeM.nameOf {α : Type} : TreeM α → Str
  | .node n _ => n
  | .badNode n => n
  | .leaf n _ => n

def TreeM.isLeaf {α : Type} : TreeM α → Bool
  | .leaf _ _ => true
  | _ => false

/-- Port of `impl Ord for TraversalNode` (semdiff-core): nodes sort before
leaves unconditionally; within one kind, compare names. -/
def childCmp {α : Type} (x y : TreeM α) : Ordering :=
  match x.isLeaf, y.isLeaf with
  | false, true => .lt
  | true, false => .gt
  | _, _ => strCmp x.nameOf y.nameOf

def childLe {α : Type} (x y : TreeM α) : Bool := !(childCmp x y == .gt)

/-- Port of the `sort_unstable` calls in `calc_diff_inner`. -/
def sortChildren {α : Type} (cs : List (TreeM α)) : List (TreeM α) :=
  cs.mergeSort childLe

-- Weight of a tree, the termination measure for the traversal.
mutual

def wt {α : Type} : TreeM α → Nat
  | .node _ cs => 2 + wtl cs + cs.length
  | .badNode _ => 1
  | .leaf _ _ => 1

def wtl {α : Type} : List (TreeM α) → Nat
  | [] => 0
  | c :: cs => wt c + wtl cs

end

def owt {α : Type} : Option (TreeM α) → Nat
  | none => 0
  | some t => wt t

/-!
## Differ chain model

A differ is a pair of a `DiffCalculator` and a `DetailReporter`
(`DiffAndReport` in semdiff-core).  The reporter methods of every reporter
in the repository record their event exactly when they return
`Ok(MayUnsupported::Ok(()))`, so a reporter outcome is modelled as
`unsupported`, `recorded`, or `err`.
-/

/-- Outcome of `DiffCalculator::diff`: `Ok(MayUnsupported::Ok(d))`,
`Ok(MayUnsupported::Unsupported)`, or `Err(e)`. -/
inductive CalcRes (δ : Type) where
  | ok (d : δ)
  | unsupported
  | err
deriving DecidableEq

/-- Outcome of one `DetailReporter` method: decline, record the entry, or
fail. -/
inductive RepRes where
  | unsupported
  | recorded
  | err
deriving DecidableEq

/-- Model of a `DiffCalculator` implementation: the `diff` method and the
`equal()` predicate of its `Diff` associated type. -/
structure CalcM (α δ : Type) where
  diff : Str → α → α → CalcRes δ
  dEqual : δ → Bool

/-- Model of a `DetailReporter` implementation. -/
structure RepM (α δ : Type) where
  report_unchanged : Str → δ → RepRes
  report_modified : Str → δ → RepRes
  report_added : Str → α → RepRes
  report_deleted : Str → α → RepRes

/-- Status of a recorded report entry. -/
inductive EKind where
  | unchanged
  | modified
  | added
  | deleted
deriving DecidableEq

/-- Outcome of one `DiffReport` trait method as observed by the engine,
together with the entry the reporter recorded. -/
inductive ROut where
  | unsupported
  | recorded (k : EKind)
  | err
deriving DecidableEq

/-- Model of a boxed `DiffReport` trait object (one element of the differ
chain). -/
structure DiffReportM (α : Type) where
  diff : Str → α → α → ROut
  added : Str → α → ROut
  deleted : Str → α → ROut

/-- Port of `impl DiffReport for DiffAndReport` (semdiff-core lines
138-181): run the calculator; pass `Unsupported` and errors through; on a
computed diff dispatch on `equal()` to `report_unchanged` or
`report_modified`, again passing `Unsupported` and errors through. -/
def DiffAndReport {α δ : Type} (c : CalcM α δ) (r : RepM α δ) : DiffReportM α where
  diff := fun n e a =>
    match c.diff n e a with
    | .err => .err
    | .unsupported => .unsupported
    | .ok d =>
      if c.dEqual d then
        match r.report_unchanged n d with
        | .unsupported => .unsupported
        | .recorded => .recorded .unchanged
        | .err => .err
      else
        match r.report_modified n d with
        | .unsupported => .unsupported
        | .recorded => .recorded .modified
        | .err => .err
  added := fun n x =>
    match r.report_added n x with
    | .unsupported => .unsupported
    | .recorded => .recorded .added
    | .err => .err
  deleted := fun n x =>
    match r.report_deleted n x with
    | .unsupported => .unsupported
    | .recorded => .recorded .deleted
    | .err => .err

/-- Result of running one leaf task. -/
inductive RunRes where
  | recorded (k : EKind)
  | errDiff
  | errNoMatch
deriving DecidableEq

/-- Port of `run_diff` (semdiff-core lines 421-442): consult differs in
order, use the first non-`Unsupported` result, fail with
`NoDiffReportMatched` when all decline. -/
def run_diff {α : Type} : List (DiffReportM α) → Str → α → α → RunRes
  | [], _, _, _ => .errNoMatch
  | d :: ds, n, e, a =>
    match d.diff n e a with
    | .recorded k => .recorded k
    | .unsupported => run_diff ds n e a
    | .err => .errDiff

/-- Port of `run_added` (semdiff-core lines 444-464). -/
def run_added {α : Type} : List (DiffReportM α) → Str → α → RunRes
  | [], _, _ => .errNoMatch
  | d :: ds, n, a =>
    match d.added n a with
    | .recorded k => .recorded k
    | .unsupported => run_added ds n a
    | .err => .errDiff

/-- Port of `run_deleted` (semdiff-core lines 466-486). -/
def run_deleted {α : Type} : List (DiffReportM α) → Str → α → RunRes
  | [], _, _ => .errNoMatch
  | d :: ds, n, e =>
    match d.deleted n e with
    | .recorded k => .recorded k
    | .unsupported => run_deleted ds n e
    | .err => .errDiff

/-!
## Traversal

`trav` is the pairing engine `calc_diff_inner`.  The mutable path
accumulator (`&mut String`) is threaded explicitly: a frame receives the
accumulator value in its call and returns the final accumulator value in
`FrameOut.acc`.  `AppendedName::new` is `appendName`; the `Drop`
implementation (truncate to the original length) is a `List.take` at every
scope exit, on success and error paths alike.  Leaf tasks are recorded in
spawn order; the engine's reporter sinks are order-insensitive.
`FrameOut.aborted` models a propagating `TraverseError`.
-/

/-- Port of `AppendedName::new`: push `'/'` when the accumulator is
nonempty, then push the segment. -/
def appendName (name seg : Str) : Str :=
  if name = [] then seg else name ++ '/' :: seg

/-- Result of one traversal frame: the leaf events produced (in spawn
order), whether a traversal error is propagating, and the final value of
the path accumulator. -/
structure FrameOut where
  events : List (Str × RunRes)
  aborted : Bool
  acc : Str

/-- Argument of the combined traversal recursion: the entry point
`calc_diff_inner` itself, the sorted-merge loop of its both-sides case, and
the child loops of its single-sided cases. -/
inductive TravCall (α : Type) where
  | inner (name : Str) (expected actual : Option (TreeM α))
  | merge (name : Str) (es as : List (TreeM α))
  | delOnly (name : Str) (cs : List (TreeM α))
  | addOnly (name : Str) (cs : List (TreeM α))

def callWt {α : Type} : TravCall α → Nat
  | .inner _ e a => owt e + owt a
  | .merge _ es as => wtl es + es.length + wtl as + as.length + 1
  | .delOnly _ cs => wtl cs + cs.length + 1
  | .addOnly _ cs => wtl cs + cs.length + 1

theorem wt_pos {α : Type} (t : TreeM α) : 1 ≤ wt t := by
  cases t <;> simp [wt] <;> omega

theorem wtl_eq_sum {α : Type} (l : List (TreeM α)) : wtl l = (l.map wt).sum := by
  induction l with
  | nil => simp [wtl]
  | cons c cs ih => simp [wtl, ih]

theorem wtl_sortChildren {α : Type} (cs : List (TreeM α)) :
    wtl (sortChildren cs) = wtl cs := by
  rw [wtl_eq_sum, wtl_eq_sum]
  exact ((List.mergeSort_perm cs childLe).map wt).sum_eq

theorem length_sortChildren {α : Type} (cs : List (TreeM α)) :
    (sortChildren cs).length = cs.length :=
  (List.mergeSort_perm cs childLe).length_eq

/-- Prepend one leaf event to the continuation frame. -/
def withEvent (ev : Str × RunRes) (rest : FrameOut) : FrameOut :=
  ⟨ev :: rest.events, rest.aborted, rest.acc⟩

/-- Combine a guarded recursion frame `o` with the continuation frame
`rest`: a propagating error stops the loop after the accumulator guard
restores (`truncate` in `AppendedName`'s `Drop`); otherwise the loop goes
on. -/
def afterFrame (name : Str) (o rest : FrameOut) : FrameOut :=
  if o.aborted then ⟨o.events, true, o.acc.take name.length⟩
  else ⟨o.events ++ rest.events, rest.aborted, rest.acc⟩

/-- Port of `calc_diff_inner` (semdiff-core lines 234-361) together with
its merge loop and single-sided child loops.

* `.inner`: the `(Some, Some)` case collects and sorts both child lists
  and enters the merge loop; a `badNode` is a node whose `children()`
  listing fails (the expected side is listed first, as in the source).
  The source never reaches `.inner` with a leaf argument (roots and
  recursion arguments are always nodes); those arms return an empty frame.
* `.merge`: the two-finger merge (lines 266-320).  The `TraversalNode`
  order (nodes before leaves, then by name) is laid out per constructor
  pair: a node meeting a leaf is always `Ordering::Less`, two items of one
  kind compare by name.  The source's `unreachable!()` for a name-equal
  cross-kind pair has no counterpart because no arm equates cross-kind
  items.
* `.delOnly`: the `(Some(expected), None)` child loop (lines 322-339).
* `.addOnly`: the `(None, Some(actual))` child loop (lines 340-357).  Note
  that for a child node the source recurses with the node on the
  *expected* side, `calc_diff_inner(.., Some(node), None, ..)` (line 346),
  unlike the merge loop's `(None, Some(actual))` arm (line 308); the model
  reproduces this faithfully. -/
def trav {α : Type} (ds : List (DiffReportM α)) : TravCall α → FrameOut
  | .inner name (some (.node _ ecs)) (some (.node _ acs)) =>
    trav ds (.merge name (sortChildren ecs) (sortChildren acs))
  | .inner name (some (.badNode _)) _ => ⟨[], true, name⟩
  | .inner name (some (.node _ _)) (some (.badNode _)) => ⟨[], true, name⟩
  | .inner name (some (.node _ ecs)) none => trav ds (.delOnly name ecs)
  | .inner name none (some (.node _ acs)) => trav ds (.addOnly name acs)
  | .inner name none (some (.badNode _)) => ⟨[], true, name⟩
  | .inner name _ _ => ⟨[], false, name⟩
  | .merge name [] [] => ⟨[], false, name⟩
  | .merge name (.leaf eln elv :: es) (.leaf aln alv :: aas) =>
    if strCmp eln aln = .lt then
      withEvent (appendName name eln, run_deleted ds (appendName name eln) elv)
        (trav ds (.merge ((appendName name eln).take name.length) es (.leaf aln alv :: aas)))
    else if strCmp eln aln = .eq then
      withEvent (appendName name eln, run_diff ds (appendName name eln) elv alv)
        (trav ds (.merge ((appendName name eln).take name.length) es aas))
    else
      withEvent (appendName name aln, run_added ds (appendName name aln) alv)
        (trav ds (.merge ((appendName name aln).take name.length) (.leaf eln elv :: es) aas))
  | .merge name (.leaf eln elv :: es) (.node an acs :: aas) =>
    afterFrame name (trav ds (.inner (appendName name an) none (some (.node an acs))))
      (trav ds (.merge ((trav ds (.inner (appendName name an) none (some (.node an acs)))).acc.take name.length) (.leaf eln elv :: es) aas))
  | .merge name (.leaf eln elv :: es) (.badNode an :: aas) =>
    afterFrame name (trav ds (.inner (appendName name an) none (some (.badNode an))))
      (trav ds (.merge ((trav ds (.inner (appendName name an) none (some (.badNode an)))).acc.take name.length) (.leaf eln elv :: es) aas))
  | .merge name (.node en ecs :: es) (.leaf aln alv :: aas) =>
    afterFrame name (trav ds (.inner (appendName name en) (some (.node en ecs)) none))
      (trav ds (.merge ((trav ds (.inner (appendName name en) (some (.node en ecs)) none)).acc.take name.length) es (.leaf aln alv :: aas)))
  | .merge name (.badNode en :: es) (.leaf aln alv :: aas) =>
    afterFrame name (trav ds (.inner (appendName name en) (some (.badNode en)) none))
      (trav ds (.merge ((trav ds (.inner (appendName name en) (some (.badNode en)) none)).acc.take name.length) es (.leaf aln alv :: aas)))
  | .merge name (.node en ecs :: es) (.node an acs :: aas) =>
    if strCmp en an = .lt then
      afterFrame name (trav ds (.inner (appendName name en) (some (.node en ecs)) none))
        (trav ds (.merge ((trav ds (.inner (appendName name en) (some (.node en ecs)) none)).acc.take name.length) es (.node an acs :: aas)))
    else if strCmp en an = .eq then
      afterFrame name (trav ds (.inner (appendName name en) (some (.node en ecs)) (some (.node an acs))))
        (trav ds (.merge ((trav ds (.inner (appendName name en) (some (.node en ecs)) (some (.node an acs)))).acc.take name.length) es aas))
    else
      afterFrame name (trav ds (.inner (appendName name an) none (some (.node an acs))))
        (trav ds (.merge ((trav ds (.inner (appendName name an) none (some (.node an acs)))).acc.take name.length) (.node en ecs :: es) aas))
  | .merge name (.node en ecs :: es) (.badNode an :: aas) =>
    if strCmp en an = .lt then
      afterFrame name (trav ds (.inner (appendName name en) (some (.node en ecs)) none))
        (trav ds (.merge ((trav ds (.inner (appendName name en) (some (.node en ecs)) none)).acc.take name.length) es (.badNode an :: aas)))
    else if strCmp en an = .eq then
      afterFrame name (trav ds (.inner (appendName name en) (some (.node en ecs)) (some (.badNode an))))
        (trav ds (.merge ((trav ds (.inner (appendName name en) (some (.node en ecs)) (some (.badNode an)))).acc.take name.length) es aas))
    else
      afterFrame name (trav ds (.inner (appendName name an) none (some (.badNode an))))
        (trav ds (.merge ((trav ds (.inner (appendName name an) none (some (.badNode an)))).acc.take name.length) (.node en ecs :: es) aas))
  | .merge name (.badNode en :: es) (.node an acs :: aas) =>
    if strCmp en an = .lt then
      afterFrame name (trav ds (.inner (appendName name en) (some (.badNode en)) none))
        (trav ds (.merge ((trav ds (.inner (appendName name en) (some (.badNode en)) none)).acc.take name.length) es (.node an acs :: aas)))
    else if strCmp en an = .eq then
      afterFrame name (trav ds (.inner (appendName name en) (some (.badNode en)) (some (.node an acs))))
        (trav ds (.merge ((trav ds (.inner (appendName name en) (some (.badNode en)) (some (.node an acs)))).acc.take name.length) es aas))
    else
      afterFrame name (trav ds (.inner (appendName name an) none (some (.node an acs))))
        (trav ds (.merge ((trav ds (.inner (appendName name an) none (some (.node an acs)))).acc.take name.length) (.badNode en :: es) aas))
  | .merge name (.badNode en :: es) (.badNode an :: aas) =>
    if strCmp en an = .lt then
      afterFrame name (trav ds (.inner (appendName name en) (some (.badNode en)) none))
        (trav ds (.merge ((trav ds (.inner (appendName name en) (some (.badNode en)) none)).acc.take name.length) es (.badNode an :: aas)))
    else if strCmp en an = .eq then
      afterFrame name (trav ds (.inner (appendName name en) (some (.badNode en)) (some (.badNode an))))
        (trav ds (.merge ((trav ds (.inner (appendName name en) (some (.badNode en)) (some (.badNode an)))).acc.take name.length) es aas))
    else
      afterFrame name (trav ds (.inner (appendName name an) none (some (.badNode an))))
        (trav ds (.merge ((trav ds (.inner (appendName name an) none (some (.badNode an)))).acc.take name.length) (.badNode en :: es) aas))
  | .merge name (.leaf ln lv :: es) [] =>
    withEvent (appendName name ln, run_deleted ds (appendName name ln) lv)
      (trav ds (.merge ((appendName name ln).take name.length) es []))
  | .merge name (.node en ecs :: es) [] =>
    afterFrame name (trav ds (.inner (appendName name en) (some (.node en ecs)) none))
      (trav ds (.merge ((trav ds (.inner (appendName name en) (some (.node en ecs)) none)).acc.take name.length) es []))
  | .merge name (.badNode en :: es) [] =>
    afterFrame name (trav ds (.inner (appendName name en) (some (.badNode en)) none))
      (trav ds (.merge ((trav ds (.inner (appendName name en) (some (.badNode en)) none)).acc.take name.length) es []))
  | .merge name [] (.leaf ln lv :: aas) =>
    withEvent (appendName name ln, run_added ds (appendName name ln) lv)
      (trav ds (.merge ((appendName name ln).take name.length) [] aas))
  | .merge name [] (.node an acs :: aas) =>
    afterFrame name (trav ds (.inner (appendName name an) none (some (.node an acs))))
      (trav ds (.merge ((trav ds (.inner (appendName name an) none (some (.node an acs)))).acc.take name.length) [] aas))
  | .merge name [] (.badNode an :: aas) =>
    afterFrame name (trav ds (.inner (appendName name an) none (some (.badNode an))))
      (trav ds (.merge ((trav ds (.inner (appendName name an) none (some (.badNode an)))).acc.take name.length) [] aas))
  | .delOnly name [] => ⟨[], false, name⟩
  | .delOnly name (.leaf ln lv :: cs) =>
    withEvent (appendName name ln, run_deleted ds (appendName name ln) lv)
      (trav ds (.delOnly ((appendName name ln).take name.length) cs))
  | .delOnly name (.node en ecs :: cs) =>
    afterFrame name (trav ds (.inner (appendName name en) (some (.node en ecs)) none))
      (trav ds (.delOnly ((trav ds (.inner (appendName name en) (some (.node en ecs)) none)).acc.take name.length) cs))
  | .delOnly name (.badNode en :: cs) =>
    afterFrame name (trav ds (.inner (appendName name en) (some (.badNode en)) none))
      (trav ds (.delOnly ((trav ds (.inner (appendName name en) (some (.badNode en)) none)).acc.take name.length) cs))
  | .addOnly name [] => ⟨[], false, name⟩
  | .addOnly name (.leaf ln lv :: cs) =>
    withEvent (appendName name ln, run_added ds (appendName name ln) lv)
      (trav ds (.addOnly ((appendName name ln).take name.length) cs))
  | .addOnly name (.node en ecs :: cs) =>
    afterFrame name (trav ds (.inner (appendName name en) (some (.node en ecs)) none))
      (trav ds (.addOnly ((trav ds (.inner (appendName name en) (some (.node en ecs)) none)).acc.take name.length) cs))
  | .addOnly name (.badNode en :: cs) =>
    afterFrame name (trav ds (.inner (appendName name en) (some (.badNode en)) none))
      (trav ds (.addOnly ((trav ds (.inner (appendName name en) (some (.badNode en)) none)).acc.take name.length) cs))
termination_by c => callWt c
decreasing_by
  all_goals
    simp only [callWt, owt, wt, wtl, wtl_sortChildren, length_sortChildren,
      List.length_cons]
  all_goals omega

/-- Port of `calc_diff` (semdiff-core lines 201-232): the traversal starts
with an empty accumulator and both roots present.  (Reporter `start` and
`finish` carry no events in the model.) -/
def calc_diff {α : Type} (ds : List (DiffReportM α)) (expected actual : TreeM α) : FrameOut :=
  trav ds (.inner [] (some expected) (some actual))

/-!
## File leaves and MIME types

`FileLeaf` (semdiff-tree-fs) also carries a display name, an absolute
path and metadata; the differ calculators only consult the detected MIME
(`kind`) and the mapped contents, so only those are modelled.  Bytes are
naturals (meaningful values are `< 256`).  A MIME is modelled by its type
and subtype; the subtype includes any `+suffix` part, and
`essence_str` is `type/subtype`, as in the `mime` crate. -/

structure MimeM where
  type_ : Str
  subtype : Str
deriving DecidableEq

def mimeEssence (m : MimeM) : Str := m.type_ ++ '/' :: m.subtype

def strOf (s : String) : Str := s.data

/-- Model of `semdiff_tree_fs::FileLeaf`, restricted to the fields the
calculators read. -/
structure FileLeaf where
  kind : MimeM
  content : List Nat
deriving DecidableEq

/-!
## Binary differ (`semdiff-differ-binary`)
-/

/-- Port of `BinaryDiff` (the rendering-only `expected`/`actual` byte views
are kept; `changes()`/`stat()` are derived data not needed by any claim). -/
structure BinaryDiff where
  equal : Bool
  expected : List Nat
  actual : List Nat

/-- Port of `impl DiffCalculator for BinaryDiffCalculator` (lines 89-105):
always accepts, `equal` is byte equality of the two contents. -/
def BinaryDiffCalculator : CalcM FileLeaf BinaryDiff where
  diff := fun _ e a => .ok ⟨e.content == a.content, e.content, a.content⟩
  dEqual := fun d => d.equal

/-- Port of the binary `DetailReporter` implementations
(report_json/report_html/report_summary): every method records its entry
and returns `Ok`. -/
def BinaryDiffReporter : RepM FileLeaf BinaryDiff where
  report_unchanged := fun _ _ => .recorded
  report_modified := fun _ _ => .recorded
  report_added := fun _ _ => .recorded
  report_deleted := fun _ _ => .recorded

/-- The binary differ chain element. -/
def binaryDiffReport : DiffReportM FileLeaf :=
  DiffAndReport BinaryDiffCalculator BinaryDiffReporter

/-!
## Text differ (`semdiff-differ-text`)
-/

/-- Port of `is_text_mime` (lines 59-72). -/
def is_text_mime (kind : MimeM) : Bool :=
  kind.type_ == strOf "text"
    || (mimeEssence kind == strOf "application/json"
      || mimeEssence kind == strOf "application/xml"
      || mimeEssence kind == strOf "application/javascript"
      || mimeEssence kind == strOf "application/x-javascript"
      || mimeEssence kind == strOf "application/x-www-form-urlencoded"
      || mimeEssence kind == strOf "application/yaml"
      || mimeEssence kind == strOf "application/x-yaml"
      || mimeEssence kind == strOf "application/toml")

/-- Port of `is_binary_mime` (lines 74-89). -/
def is_binary_mime (kind : MimeM) : Bool :=
  mimeEssence kind == strOf "application/octet-stream"
    || kind.type_ == strOf "image"
    || kind.type_ == strOf "audio"
    || kind.type_ == strOf "video"
    || (mimeEssence kind == strOf "application/pdf"
      || mimeEssence kind == strOf "application/zip"
      || mimeEssence kind == strOf "application/gzip"
      || mimeEssence kind == strOf "application/x-tar"
      || mimeEssence kind == strOf "application/x-7z-compressed"
      || mimeEssence kind == strOf "application/x-rar-compressed"
      || mimeEssence kind == strOf "application/x-bzip2")

/-- UTF-8 continuation byte test. -/
def isCont (b : Nat) : Bool := 0x80 ≤ b && b ≤ 0xBF

/-- Model of Rust `str::from_utf8`: strict UTF-8 decoding (rejects overlong
forms, surrogates and out-of-range code points). -/
def utf8Decode : List Nat → Option Str
  | [] => some []
  | b0 :: rest =>
    if b0 ≤ 0x7F then
      (utf8Decode rest).map (Char.ofNat b0 :: ·)
    else if 0xC2 ≤ b0 && b0 ≤ 0xDF then
      match rest with
      | b1 :: rest2 =>
        if isCont b1 then
          (utf8Decode rest2).map (Char.ofNat ((b0 - 0xC0) * 0x40 + (b1 - 0x80)) :: ·)
        else none
      | _ => none
    else if 0xE0 ≤ b0 && b0 ≤ 0xEF then
      match rest with
      | b1 :: b2 :: rest3 =>
        let okB1 : Bool :=
          if b0 == 0xE0 then 0xA0 ≤ b1 && b1 ≤ 0xBF
          else if b0 == 0xED then 0x80 ≤ b1 && b1 ≤ 0x9F
          else isCont b1
        if okB1 && isCont b2 then
          (utf8Decode rest3).map
            (Char.ofNat ((b0 - 0xE0) * 0x1000 + (b1 - 0x80) * 0x40 + (b2 - 0x80)) :: ·)
        else none
      | _ => none
    else if 0xF0 ≤ b0 && b0 ≤ 0xF4 then
      match rest with
      | b1 :: b2 :: b3 :: rest4 =>
        let okB1 : Bool :=
          if b0 == 0xF0 then 0x90 ≤ b1 && b1 ≤ 0xBF
          else if b0 == 0xF4 then 0x80 ≤ b1 && b1 ≤ 0x8F
          else isCont b1
        if okB1 && isCont b2 && isCont b3 then
          (utf8Decode rest4).map
            (Char.ofNat
              ((b0 - 0xF0) * 0x40000 + (b1 - 0x80) * 0x1000 + (b2 - 0x80) * 0x40 + (b3 - 0x80)) :: ·)
        else none
      | _ => none
    else none

/-- Model of Rust `char::is_control` (the Unicode `Cc` category). -/
def char_is_control (c : Char) : Bool :=
  c.toNat ≤ 0x1F || (0x7F ≤ c.toNat && c.toNat ≤ 0x9F)

/-- Allowed-character test of the text gate:
`!ch.is_control() || matches!(ch, '\n' | '\r' | '\t')`. -/
def textAllowedChar (c : Char) : Bool :=
  !(char_is_control c) || (c == '\n' || c == '\r' || c == '\t')

/-- Port of `is_text_file` (semdiff-differ-text lines 43-57): a text MIME
is a text file; a binary MIME is not; otherwise the contents must decode
as UTF-8 and every character must be allowed. -/
def is_text_file (kind : MimeM) (body : List Nat) : Bool :=
  if is_text_mime kind then true
  else if is_binary_mime kind then false
  else
    match utf8Decode body with
    | none => false
    | some text => text.all textAllowedChar

/-- Port of `TextDiff` (equality plus the two byte views; the rendered
line diff is derived data not needed by any claim). -/
structure TextDiff where
  equal : Bool
  expected : List Nat
  actual : List Nat
deriving DecidableEq

/-- Port of `impl DiffCalculator for TextDiffCalculator` (lines 98-137).
Note the shape of the content filter in the source: a side causes
`Unsupported` when *all* of its characters satisfy
`ch.is_control() && !matches!(ch, '\n' | '\r' | '\t')` — this is the
literal condition at lines 118-129, not the negation of the
`is_text_file` filter. -/
def TextDiffCalculator : CalcM FileLeaf TextDiff where
  diff := fun _ e a =>
    if is_text_mime e.kind && is_text_mime a.kind then
      .ok ⟨e.content == a.content, e.content, a.content⟩
    else if is_binary_mime e.kind || is_binary_mime a.kind then
      .unsupported
    else
      match utf8Decode e.content with
      | none => .unsupported
      | some te =>
        match utf8Decode a.content with
        | none => .unsupported
        | some ta =>
          if te.all (fun ch => !(textAllowedChar ch)) then .unsupported
          else if ta.all (fun ch => !(textAllowedChar ch)) then .unsupported
          else .ok ⟨e.content == a.content, e.content, a.content⟩
  dEqual := fun d => d.equal

/-- Port of the text `DetailReporter` implementations: `report_unchanged`
and `report_modified` always record; `report_added` and `report_deleted`
decline with `Unsupported` unless `is_text_file` holds for the single
side's data. -/
def TextDiffReporter : RepM FileLeaf TextDiff where
  report_unchanged := fun _ _ => .recorded
  report_modified := fun _ _ => .recorded
  report_added := fun _ d => if is_text_file d.kind d.content then .recorded else .unsupported
  report_deleted := fun _ d => if is_text_file d.kind d.content then .recorded else .unsupported

/-!
## JSON differ (`semdiff-differ-json`)

JSON values are modelled with ordered objects (the `serde_json` map used
with `sort_all_objects` preserves insertion order) and exact rational
numbers.
-/

inductive JsonM where
  | null
  | bool (b : Bool)
  | num (q : ℚ)
  | str (s : Str)
  | arr (xs : List JsonM)
  | obj (kvs : List (Str × JsonM))

-- Structural equality of values, Rust `PartialEq for Value`.
mutual

def JsonM.beq : JsonM → JsonM → Bool
  | .null, .null => true
  | .bool a, .bool b => a == b
  | .num a, .num b => a == b
  | .str a, .str b => a == b
  | .arr xs, .arr ys => JsonM.beqArr xs ys
  | .obj xs, .obj ys => JsonM.beqKvs xs ys
  | _, _ => false

def JsonM.beqArr : List JsonM → List JsonM → Bool
  | [], [] => true
  | x :: xs, y :: ys => x.beq y && JsonM.beqArr xs ys
  | _, _ => false

def JsonM.beqKvs : List (Str × JsonM) → List (Str × JsonM) → Bool
  | [], [] => true
  | (k, v) :: xs, (k2, v2) :: ys => k == k2 && v.beq v2 && JsonM.beqKvs xs ys
  | _, _ => false

end

-- Size measure for the nested recursions below.
mutual

def jsz : JsonM → Nat
  | .null => 1
  | .bool _ => 1
  | .num _ => 1
  | .str _ => 1
  | .arr xs => 1 + jszArr xs
  | .obj kvs => 1 + jszKvs kvs

def jszArr : List JsonM → Nat
  | [] => 0
  | x :: xs => 1 + jsz x + jszArr xs

def jszKvs : List (Str × JsonM) → Nat
  | [] => 0
  | (_, v) :: kvs => 1 + jsz v + jszKvs kvs

end

def kvLe (a b : Str × JsonM) : Bool := !(strCmp a.1 b.1 == .gt)

-- Port of `serde_json::Value::sort_all_objects`: recursively sort every
-- object's entries by key.
mutual

def sort_all_objects : JsonM → JsonM
  | .null => .null
  | .bool b => .bool b
  | .num q => .num q
  | .str s => .str s
  | .arr xs => .arr (sortArr xs)
  | .obj kvs => .obj ((sortKvs kvs).mergeSort kvLe)

def sortArr : List JsonM → List JsonM
  | [] => []
  | x :: xs => sort_all_objects x :: sortArr xs

def sortKvs : List (Str × JsonM) → List (Str × JsonM)
  | [] => []
  | (k, v) :: kvs => (k, sort_all_objects v) :: sortKvs kvs

end

/-- Diff operation of an LCS-style alignment. -/
inductive DOp (β : Type) where
  | eq (x : β)
  | del (x : β)
  | ins (y : β)

def DOp.isEq {β : Type} : DOp β → Bool
  | .eq _ => true
  | _ => false

def countEq {β : Type} (ops : List (DOp β)) : Nat :=
  (ops.filter DOp.isEq).length

/-- Model of the external `similar` crate's patience diff driver
(`similar::algorithms::patience::diff`): an alignment maximising the
common subsequence, emitting per-element operations in order.  The claims
rely only on properties shared by every maximal-common-subsequence diff
(equal inputs produce only `eq` operations; sequences without a common
order cannot be aligned element-for-element). -/
def lcsDiff {β : Type} (eqb : β → β → Bool) : List β → List β → List (DOp β)
  | [], ys => ys.map .ins
  | x :: xs, [] => (x :: xs).map .del
  | x :: xs, y :: ys =>
    if eqb x y then .eq x :: lcsDiff eqb xs ys
    else
      let d1 := .del x :: lcsDiff eqb xs (y :: ys)
      let d2 := .ins y :: lcsDiff eqb (x :: xs) ys
      if countEq d1 < countEq d2 then d2 else d1
termination_by xs ys => xs.length + ys.length
decreasing_by all_goals simp_arith

/-- Tag of one display line of the JSON diff (`ChangeTag` in
semdiff-differ-json). -/
inductive ChangeTag where
  | unchanged
  | added
  | deleted
deriving DecidableEq

/-- Same-kind scalar comparison used by `ObjectDiffHook::equal` (lines
450-455): both values are scalars of one kind and equal. -/
def scalarEqUnchanged : JsonM → JsonM → Bool
  | .null, .null => true
  | .bool b, .bool b' => b == b'
  | .num q, .num q' => q == q'
  | .str s, .str s' => s == s'
  | _, _ => false

/-- Port of `json_array_diff` (lines 200-405) at the level of line tags:
`equal` runs emit `Unchanged` lines, `delete` runs `Deleted` lines,
`insert` runs `Added` lines (each run's lines all carry one tag; the model
collapses a run element's rendered lines to one tag).  The best-fit
container pairing that the source applies to *replace* runs (lines
283-403) is not modelled: a replace run is emitted as its deletions
followed by its insertions, which no claim depends on. -/
def json_array_diff (es as : List JsonM) : List ChangeTag :=
  (lcsDiff JsonM.beq es as).map fun op =>
    match op with
    | .eq _ => .unchanged
    | .del _ => .deleted
    | .ins _ => .added

theorem lookup_jsz {kvs : List (Str × JsonM)} {k : Str} {v : JsonM}
    (h : List.lookup k kvs = some v) : jsz v < 1 + jszKvs kvs := by
  induction kvs with
  | nil => simp [List.lookup] at h
  | cons kv kvs ih =>
    obtain ⟨k', v'⟩ := kv
    rw [List.lookup] at h
    by_cases hk : k == k'
    · simp [hk] at h
      subst h
      simp [jszKvs]
      omega
    · simp [hk] at h
      have := ih h
      simp [jszKvs]
      omega

-- Port of `json_diff` (lines 199-614) at the level of line tags.
-- `json_object_diff` diffs the key lists with the patience driver and
-- processes the operations with `ObjectDiffHook` (`objOps`/`objEqualKey`
-- below); values are looked up by key as in the source (`self.expected
-- .get(k).unwrap()`), the impossible `None` lookup emitting nothing.
mutual

/-- Top-level match of `json_diff` (lines 581-613): same-kind scalars emit
one `Unchanged` line or a `Deleted`/`Added` pair; two arrays or two
objects recurse between `Unchanged` bracket lines; mixed kinds emit the
expected side's lines as `Deleted` then the actual side's as `Added`. -/
def json_diff : JsonM → JsonM → List ChangeTag
  | .null, .null => [.unchanged]
  | .bool b, .bool b' => if b == b' then [.unchanged] else [.deleted, .added]
  | .num q, .num q' => if q == q' then [.unchanged] else [.deleted, .added]
  | .str s, .str s' => if s == s' then [.unchanged] else [.deleted, .added]
  | .arr xs, .arr ys => .unchanged :: (json_array_diff xs ys ++ [.unchanged])
  | .obj kvs, .obj kvs' => .unchanged :: (json_object_diff kvs kvs' ++ [.unchanged])
  | _, _ => [.deleted, .added]

/-- Port of `json_object_diff` (lines 406-580): patience-diff the two key
lists, then replay the operations. -/
def json_object_diff (ekvs akvs : List (Str × JsonM)) : List ChangeTag :=
  objOps ekvs akvs (lcsDiff (fun a b => a == b) (ekvs.map Prod.fst) (akvs.map Prod.fst))
termination_by
  (jszKvs ekvs + jszKvs akvs + 1,
    (lcsDiff (fun a b => a == b) (ekvs.map Prod.fst) (akvs.map Prod.fst)).length + 3)
decreasing_by
  simp_wf
  simp only [Prod.lex_def]
  exact Or.inr ⟨trivial, Nat.lt_succ_self _⟩

/-- Replay of the object hook operations: `delete` emits the deleted
value's lines, `insert` the added value's lines, `equal` dispatches on the
two values at the shared key. -/
def objOps (ekvs akvs : List (Str × JsonM)) : List (DOp Str) → List ChangeTag
  | [] => []
  | .eq k :: ops => objEqualKey ekvs akvs k ++ objOps ekvs akvs ops
  | .del _ :: ops => .deleted :: objOps ekvs akvs ops
  | .ins _ :: ops => .added :: objOps ekvs akvs ops
termination_by ops => (jszKvs ekvs + jszKvs akvs + 1, ops.length + 2)
decreasing_by
  all_goals simp_wf
  all_goals simp only [Prod.lex_def, List.length_cons]
  all_goals exact Or.inr ⟨trivial, by omega⟩

/-- Port of `ObjectDiffHook::equal` (lines 443-499): equal same-kind
scalars emit one `Unchanged` line; two arrays or two objects recurse
between `Unchanged` bracket lines; anything else falls back to
`delete` + `insert`. -/
def objEqualKey (ekvs akvs : List (Str × JsonM)) (k : Str) : List ChangeTag :=
  match he : List.lookup k ekvs, ha : List.lookup k akvs with
  | some (.arr xs), some (.arr ys) => .unchanged :: (json_array_diff xs ys ++ [.unchanged])
  | some (.obj ikv), some (.obj ikv') =>
    .unchanged :: (json_object_diff ikv ikv' ++ [.unchanged])
  | some ev, some av => if scalarEqUnchanged ev av then [.unchanged] else [.deleted, .added]
  | _, _ => []
termination_by (jszKvs ekvs + jszKvs akvs + 1, 0)
decreasing_by
  all_goals simp_wf
  all_goals simp only [Prod.lex_def]
  all_goals
    exact Or.inl (by
      have h1 := lookup_jsz he
      have h2 := lookup_jsz ha
      simp only [jsz] at h1 h2
      omega)

end

/-- Body of the computed JSON diff (`JsonDiffBody`): `Equal` when every
line of the structural diff is `Unchanged`, else `Modified`. -/
inductive JsonDiffBodyM where
  | equalBody
  | modifiedBody (lines : List ChangeTag)

/-- Port of the value-level part of `JsonDiffCalculator::diff` (lines
83-97).  The preceding steps of the method — the `is_json_mime` gate on
both MIMEs and `serde_json` parsing of both contents, each declining with
`Unsupported` on failure (lines 74-82) — are conditions of the claims and
are not duplicated here: the function takes the two parsed values. -/
def json_diff_calc (ignore_object_key_order : Bool) (expected actual : JsonM) : JsonDiffBodyM :=
  let e := if ignore_object_key_order then sort_all_objects expected else expected
  let a := if ignore_object_key_order then sort_all_objects actual else actual
  let d := json_diff e a
  if d.all (· == ChangeTag.unchanged) then .equalBody else .modifiedBody d

/-- Port of `impl Diff for JsonDiff`: `equal()` holds exactly of the
`Equal` body. -/
def jsonEqual : JsonDiffBodyM → Bool
  | .equalBody => true
  | .modifiedBody _ => false

/-- Port of `is_json_mime` (lines 101-111): `application/json`, any
`application/x+json` with nonempty `x`, or `text/json`. -/
def is_json_mime (kind : MimeM) : Bool :=
  mimeEssence kind == strOf "application/json"
    || (kind.type_ == strOf "application"
      && (strOf "+json").isSuffixOf kind.subtype
      && kind.subtype.length > (strOf "+json").length)
    || mimeEssence kind == strOf "text/json"

/-!
## Image differ (`semdiff-differ-image`)

Images are modelled after decoding: `ImageDiffCalculator::diff` decodes
both sides to 8-bit RGBA via the external `image` crate (returning
`Unsupported` on a non-image MIME or a decode failure) and then calls
`compare`; the definitions below model everything from `compare` on.
An `RgbaImageM` gives the pixel at each in-bounds coordinate.
-/

/-- One 8-bit RGBA pixel. -/
structure Px where
  r : Nat
  g : Nat
  b : Nat
  a : Nat
deriving DecidableEq

structure RgbaImageM where
  width : Nat
  height : Nat
  pix : Nat → Nat → Px

/-- Port of `ImageDiffStat`; the `f32` ratio is idealised as an exact
rational. -/
structure ImageDiffStat where
  diff_pixels : Nat
  total_pixels : Nat
  diff_ratio : ℚ

/-- Port of `ImageDiffCalculator::pixel_diff` (lines 86-95): two pixels
differ when the euclidean distance of their `(L, a, b, α)` vectors exceeds
`max_distance`.  The sRGB-to-OkLab conversion itself is the external
`color` crate (`to_oklab_alpha`), taken as the parameter `lab`. -/
noncomputable def pixel_diff (lab : Px → ℝ × ℝ × ℝ × ℝ) (max_distance : ℝ)
    (expected actual : Px) : Bool :=
  let (el, ea, eb, ealpha) := lab expected
  let (al, aa, ab, aalpha) := lab actual
  let dl := el - al
  let da := ea - aa
  let db := eb - ab
  let dalpha := ealpha - aalpha
  let distance := Real.sqrt (dl * dl + da * da + db * db + dalpha * dalpha)
  open Classical in if max_distance < distance then true else false

def DIFF_PIXEL_COLOR : Px := ⟨255, 255, 255, 180⟩

def SAME_PIXEL_COLOR : Px := ⟨255, 255, 255, 0⟩

/-- Port of `ImageDiffCalculator::compare` (lines 105-153), parameterised
over the pixel predicate `pd` (`pixel_diff` with the calculator's
`max_distance`).  Differing pixels are counted over the
`min_width × min_height` overlap, every pixel outside the overlap counts
as differing, `total_pixels = max_width * max_height`, and the diff image
(`max_width × max_height`, zero-initialised like `RgbaImage::new`) is
opaque white on differing and outside pixels, transparent on equal
overlap pixels. -/
def compare (pd : Px → Px → Bool) (expected actual : RgbaImageM) :
    ImageDiffStat × RgbaImageM :=
  let max_width := max expected.width actual.width
  let max_height := max expected.height actual.height
  let min_width := min expected.width actual.width
  let min_height := min expected.height actual.height
  let total_pixels := max_width * max_height
  let overlap_diff :=
    ((Finset.range min_height ×ˢ Finset.range min_width).filter
      (fun yx => pd (expected.pix yx.2 yx.1) (actual.pix yx.2 yx.1))).card
  let diff_pixels :=
    overlap_diff + (max_width - min_width) * min_height + (max_height - min_height) * max_width
  let diff_image : RgbaImageM :=
    ⟨max_width, max_height, fun x y =>
      if x < min_width ∧ y < min_height then
        if pd (expected.pix x y) (actual.pix x y) then DIFF_PIXEL_COLOR else SAME_PIXEL_COLOR
      else if x < max_width ∧ y < max_height then DIFF_PIXEL_COLOR
      else ⟨0, 0, 0, 0⟩⟩
  let diff_ratio : ℚ := if total_pixels = 0 then 0 else (diff_pixels : ℚ) / (total_pixels : ℚ)
  (⟨diff_pixels, total_pixels, diff_ratio⟩, diff_image)

/-- Port of the tail of `ImageDiffCalculator::diff` (lines 180-200):
`equal ⇔ diff_ratio ≤ max_diff_ratio`. -/
def image_equal (pd : Px → Px → Bool) (max_diff_ratio : ℚ)
    (expected actual : RgbaImageM) : Bool :=
  (compare pd expected actual).1.diff_ratio ≤ max_diff_ratio

/-!
## Audio differ (`semdiff-differ-audio`)

`AudioDiffCalculator::diff` decodes both sides through the external
`symphonia` crate (`decode_audio`), declining with `Unsupported` on a
non-audio MIME or a decode failure; the definitions below model the
pipeline from the decoded data (`AudioDecoded`) on.  `f32` arithmetic is
idealised by exact reals; the `f32::INFINITY` produced by
`summarize_channel_metrics` for zero channels is an `Option.none`, and
the `±INFINITY` sentinels for a missing spectrogram frame make the cell
count as differing for any finite tolerance (`cellBad`).
-/

/-- Decoded audio: `AudioDecoded` without the derived spectrograms (they
are recomputed from the aligned samples by `diff`). -/
structure AudioDecodedM where
  sample_rate : Nat
  channels : Nat
  samples : List (List ℝ)

/-- Rounding of a nonnegative value, `f32::round`/`f64::round` (half away
from zero). -/
noncomputable def rnd (x : ℝ) : ℤ := ⌊x + 1 / 2⌋

/-- Constant `LOG_EPSILON = 1e-6`. -/
noncomputable def LOG_EPSILON : ℝ := 1 / 1000000

/-- Port of `normalized_correlation` (lines 584-596). -/
noncomputable def normalized_correlation (e a : List ℝ) : ℝ :=
  let dot := ((e.zip a).map (fun p => p.1 * p.2)).sum
  let epow := (e.map (fun x => x * x)).sum
  let apow := (a.map (fun x => x * x)).sum
  dot / max (Real.sqrt epow * Real.sqrt apow) LOG_EPSILON

/-- Port of `loudness_db` (lines 598-605): RMS clamped below by
`LOG_EPSILON`, in decibels; `-100` for an empty channel. -/
noncomputable def loudness_db (samples : List ℝ) : ℝ :=
  if samples.isEmpty then -100
  else
    let power := (samples.map (fun s => s * s)).sum / samples.length
    20 * Real.logb 10 (max (Real.sqrt power) LOG_EPSILON)

/-- Port of `summarize_channel_metrics` (lines 534-551): `none` models the
`f32::INFINITY` returned when there is no channel pair; otherwise the
maximum loudness difference over channel pairs, skipping pairs with an
empty side. -/
noncomputable def summarize_channel_metrics (expected actual : List (List ℝ)) : Option ℝ :=
  if min expected.length actual.length = 0 then none
  else
    some ((expected.zip actual).foldl
      (fun m p =>
        if p.1.isEmpty || p.2.isEmpty then m
        else max m |loudness_db p.1 - loudness_db p.2|)
      0)

/-- Port of `overlap_range` (lines 560-570), as `(start, len)` pairs. -/
def overlap_range (expected_len actual_len : Nat) (shift : ℤ) :
    (Nat × Nat) × (Nat × Nat) :=
  if 0 ≤ shift then
    let s := shift.toNat
    let len := min expected_len (actual_len - s)
    ((0, len), (s, len))
  else
    let s := (-shift).toNat
    let len := min actual_len (expected_len - s)
    ((s, len), (0, len))

/-- Port of `overlap_slices` (lines 572-582). -/
def overlap_slices (expected actual : List ℝ) (shift : ℤ) : List ℝ × List ℝ :=
  if 0 ≤ shift then
    let s := shift.toNat
    let len := min expected.length (actual.length - s)
    (expected.take len, (actual.drop s).take len)
  else
    let s := (-shift).toNat
    let len := min actual.length (expected.length - s)
    ((expected.drop s).take len, actual.take len)

/-- Port of `align_samples` (lines 504-532): score every integer shift in
`[-max_shift, max_shift]` by the summed per-channel normalized
correlation, pick the shift minimising the sum (first minimum, `min_by`),
default `0` for an empty candidate range, then drain the leading samples
the chosen shift discards on each side (channels beyond the shorter
channel list are left untouched, as with `iter_mut().zip`). -/
noncomputable def align_samples (expected actual : List (List ℝ)) (max_shift : ℤ) :
    List (List ℝ) × List (List ℝ) × ℤ :=
  let cands : List ℤ :=
    if max_shift < 0 then []
    else (List.range (2 * max_shift.toNat + 1)).map (fun i => -max_shift + i)
  let scored := cands.map (fun s =>
    (s, ((expected.zip actual).map (fun p =>
      let sl := overlap_slices p.1 p.2 s
      normalized_correlation sl.1 sl.2)).sum))
  let best := scored.foldl
    (fun acc p =>
      match acc with
      | none => some p
      | some q => open Classical in if p.2 < q.2 then some p else some q)
    none
  let best_shift := match best with | none => 0 | some q => q.1
  let expected2 := (List.range expected.length).map (fun i =>
    let ec := expected.getD i []
    match actual[i]? with
    | some ac => ec.drop (min ((overlap_range ec.length ac.length best_shift).1.1) ec.length)
    | none => ec)
  let actual2 := (List.range actual.length).map (fun i =>
    let ac := actual.getD i []
    match expected[i]? with
    | some ec => ac.drop (min ((overlap_range ec.length ac.length best_shift).2.1) ac.length)
    | none => ac)
  (expected2, actual2, best_shift)

/-- Spectrogram constants (`SPECTROGRAM_*`, `FFT_WINDOW_SIZE`). -/
def SPECTROGRAM_HEIGHT : Nat := 256

def SPECTROGRAM_DATA_HEIGHT : Nat := 1024

def FFT_WINDOW_SIZE : Nat := 2048

/-- Sine-taper window of `SpectrogramAnalyzer::new`:
`sin(π·i/(N−1))` with `N = FFT_WINDOW_SIZE`. -/
noncomputable def fftWindow (i : Nat) : ℝ :=
  Real.sin (Real.pi * i / (FFT_WINDOW_SIZE - 1))

/-- Modelled from the spec: the external FFT library (`rustfft`) computes
the forward discrete Fourier transform of the window buffer. -/
noncomputable def dft (buf : Nat → ℂ) (k : Nat) : ℂ :=
  ∑ j ∈ Finset.range FFT_WINDOW_SIZE,
    buf j * Complex.exp (-(2 * Real.pi * Complex.I * j * k) / FFT_WINDOW_SIZE)

/-- Port of `SpectrogramAnalyzer::compute` (lines 776-805): frames start
every `N/2` samples while the start offset is within the channel (hence
`len / (N/2) + 1` frames), the buffer is the windowed samples padded with
zeros, and a frame stores `log10 |c_k|` of the first
`SPECTROGRAM_DATA_HEIGHT` FFT bins (the model's frame is total in `k`;
the source array holds `k < 1024`, the only bins ever read). -/
noncomputable def compute (samples : List ℝ) : List (Nat → ℝ) :=
  (List.range (samples.length / (FFT_WINDOW_SIZE / 2) + 1)).map (fun i k =>
    Real.logb 10 (Complex.abs
      (dft (fun j => ((samples.getD (i * (FFT_WINDOW_SIZE / 2) + j) 0) * fftWindow j : ℝ)) k)))

/-- Constants of `spectrogram_log_bin_range`: compression base `B = 20`
and `A = SPECTROGRAM_DATA_HEIGHT / (B − 1)`. -/
noncomputable def specA : ℝ := 1024 / 19

/-- Display position of the boundary of data bin `y`:
`log_B(y/A + 1)` (lines 659-660). -/
noncomputable def specP (y : Nat) : ℝ := Real.logb 20 ((y : ℝ) / specA + 1)

open Classical in
/-- Number of data bins processed by the first loop of
`spectrogram_log_bin_range` before a bin's display range gets narrower
than one row (`wrote`). -/
noncomputable def specWrote : Nat :=
  (((List.range 1024).filter
    (fun y => decide ((specP (y + 1) - specP y) * 256 < 1))).head?).getD 1024

open Classical in
/-- Content the first loop of `spectrogram_log_bin_range` leaves in
display row `r`: the last processed data bin whose rounded display range
covers `r` (fills overwrite), or nothing for an untouched slot. -/
noncomputable def firstFillRow (r : Nat) : List Nat :=
  match ((List.range specWrote).filter
    (fun y => decide ((rnd (256 * specP y)).toNat ≤ r ∧ r < (rnd (256 * specP (y + 1))).toNat))).getLast? with
  | some y => [y]
  | none => []

/-- Consecutive naturals `[lo, hi)`. -/
def natRangeL (lo hi : Nat) : List Nat := (List.range hi).drop lo

/-- Geometric range of the second loop of `spectrogram_log_bin_range`
(lines 668-677). -/
noncomputable def geomRow (r : Nat) : List Nat :=
  natRangeL (rnd (specA * ((20 : ℝ) ^ ((r : ℝ) / 256) - 1))).toNat
    (rnd (specA * ((20 : ℝ) ^ (((r : ℝ) + 1) / 256) - 1))).toNat

/-- Port of `spectrogram_log_bin_range` (lines 652-681): rows below
`wrote` keep the first loop's fills, rows from `wrote` on get the
geometric formula. -/
noncomputable def spectrogram_log_bin_range (r : Nat) : List Nat :=
  if r < specWrote then firstFillRow r else geomRow r

/-- Cell comparison of `diff_spectrograms` (lines 403-410): with both
frames present the absolute difference must exceed the tolerance; a
missing frame is `unwrap_or(±INFINITY)`, whose difference exceeds any
finite tolerance. -/
def cellBad (e a : List (Nat → ℝ)) (tol : ℝ) (x yy : Nat) : Prop :=
  match e[x]?, a[x]? with
  | some ef, some af => tol < |ef yy - af yy|
  | _, _ => True

open Classical in
/-- Port of the counting part of `diff_spectrograms` (lines 383-455) as
`(diff_count, total_count)`.  Both source branches (more frames than
display columns, and fewer) enumerate exactly the cells
`(frame, data bin)` for every frame index below the longer side's frame
count and every data bin of every display row's bin range; the branches
differ only in how frames are grouped into display columns. -/
noncomputable def diff_spectrograms (tol : ℝ) (e a : List (Nat → ℝ)) : Nat × Nat :=
  let len := max e.length a.length
  let rowBins := ((List.range SPECTROGRAM_HEIGHT).map
    (fun r => (spectrogram_log_bin_range r).length)).sum
  let diffc := ((List.range len).map (fun x =>
    ((List.range SPECTROGRAM_HEIGHT).map (fun r =>
      ((spectrogram_log_bin_range r).filter (fun yy => decide (cellBad e a tol x yy))).length)).sum)).sum
  (diffc, len * rowBins)

/-- Port of `build_diff_images` (lines 367-381), rate part: the mean over
channels of each channel's `diff_count / total_count` (`0` for an empty
total). -/
noncomputable def build_diff_rate (tol : ℝ) (e a : List (List (Nat → ℝ))) : ℝ :=
  let rates := (e.zip a).map (fun p =>
    let dt := diff_spectrograms tol p.1 p.2
    if dt.2 = 0 then (0 : ℝ) else (dt.1 : ℝ) / (dt.2 : ℝ))
  rates.sum / e.length

/-- Status of the computed audio diff (`AudioDiffStatus`). -/
inductive AudioStatusM where
  | equalS
  | differentS
  | incomparable
deriving DecidableEq

open Classical in
/-- Port of the decision pipeline of `AudioDiffCalculator::diff` (lines
230-277), from the two decoded sides: mismatched `(sample_rate,
channels)` is `Incomparable`; otherwise align by cross-correlation within
the rounded shift budget, recompute both spectrograms from the aligned
samples, and compare: `equal ⇔ lufs_diff_db ≤ lufs_tolerance_db ∧
spectrogram_diff_rate ≤ spectrogram_diff_rate_tolerance` (an infinite
`lufs` never passes). -/
noncomputable def audio_diff_status (shift_tolerance_seconds lufs_tolerance_db spectral_tolerance : ℝ)
    (spectrogram_diff_rate_tolerance : ℝ) (expected actual : AudioDecodedM) : AudioStatusM :=
  if (expected.sample_rate, expected.channels) ≠ (actual.sample_rate, actual.channels) then
    .incomparable
  else
    let max_shift_samples := rnd (shift_tolerance_seconds * (expected.sample_rate : ℝ))
    let al := align_samples expected.samples actual.samples max_shift_samples
    let espec := al.1.map compute
    let aspec := al.2.1.map compute
    let rate := build_diff_rate spectral_tolerance espec aspec
    let lufs := summarize_channel_metrics al.1 al.2.1
    let eq : Prop :=
      (match lufs with
        | none => False
        | some l => l ≤ lufs_tolerance_db) ∧ rate ≤ spectrogram_diff_rate_tolerance
    if eq then .equalS else .differentS

/-!
## Auxiliary definitions for the statements

Invariants of well-formed input trees, enumerations of leaf report keys,
and concrete probe instances used by evaluations and witnesses.
-/

/-- Accumulator argument of a traversal call. -/
def travName {α : Type} : TravCall α → Str
  | .inner name _ _ => name
  | .merge name _ _ => name
  | .delOnly name _ => name
  | .addOnly name _ => name

/-- A valid path segment: nonempty and free of the separator. -/
def segOk (s : Str) : Prop := s ≠ [] ∧ '/' ∉ s

/-- Well-formed tree: within each node the children's names are distinct,
and every name is a single path segment. -/
inductive TreeOk {α : Type} : TreeM α → Prop where
  | leaf (n : Str) (v : α) : TreeOk (.leaf n v)
  | bad (n : Str) : TreeOk (.badNode n)
  | node (n : Str) (cs : List (TreeM α))
      (hnd : (cs.map TreeM.nameOf).Nodup)
      (hseg : ∀ c ∈ cs, segOk c.nameOf)
      (hcs : ∀ c ∈ cs, TreeOk c) : TreeOk (.node n cs)

/-- Tree with no failing directory listing. -/
inductive NoBad {α : Type} : TreeM α → Prop where
  | leaf (n : Str) (v : α) : NoBad (.leaf n v)
  | node (n : Str) (cs : List (TreeM α)) (hcs : ∀ c ∈ cs, NoBad c) : NoBad (.node n cs)

/-- First path segment of a key. -/
def firstSeg (s : Str) : Str := s.takeWhile (fun c => !(c == '/'))

/-- Key class contributed by one child: a leaf's single key, or any key
strictly below a node's segment. -/
def classOf {α : Type} (name : Str) (c : TreeM α) (k : Str) : Prop :=
  if c.isLeaf then k = appendName name c.nameOf
  else ∃ r, k = appendName name (c.nameOf ++ '/' :: r)

-- Report keys of the leaves in natural child order (`A ∪ B` leaf paths).
mutual

def childPaths {α : Type} (name : Str) : TreeM α → List Str
  | .leaf n _ => [appendName name n]
  | .node n cs => pathsList (appendName name n) cs
  | .badNode _ => []

def pathsList {α : Type} (name : Str) : List (TreeM α) → List Str
  | [] => []
  | c :: cs => childPaths name c ++ pathsList name cs

end

-- Report keys of the leaves in traversal (sorted) order.
mutual

def childPathsSorted {α : Type} (name : Str) : TreeM α → List Str
  | .leaf n _ => [appendName name n]
  | .node n cs => pathsListSorted (appendName name n) (sortChildren cs)
  | .badNode _ => []
termination_by t => wt t
decreasing_by
  simp only [wt, wtl_sortChildren, length_sortChildren]
  omega

def pathsListSorted {α : Type} (name : Str) : List (TreeM α) → List Str
  | [] => []
  | c :: cs => childPathsSorted name c ++ pathsListSorted name cs
termination_by cs => wtl cs + cs.length + 1
decreasing_by
  all_goals simp only [wtl, List.length_cons]
  all_goals have := wt_pos c
  all_goals omega

end

/-- Probe differ for concrete evaluations: accepts every pair (equality of
the payloads), every addition and every deletion. -/
def probeDiffer : DiffReportM Nat where
  diff := fun _ e a => .recorded (if e == a then .unchanged else .modified)
  added := fun _ _ => .recorded .added
  deleted := fun _ _ => .recorded .deleted

/-- Probe calculator that accepts every pair with an equal diff. -/
def probeCalc : CalcM Nat Unit where
  diff := fun _ _ _ => .ok ()
  dEqual := fun _ => true

/-- Probe reporter whose `report_unchanged` declines. -/
def probeRep : RepM Nat Unit where
  report_unchanged := fun _ _ => .unsupported
  report_modified := fun _ _ => .recorded
  report_added := fun _ _ => .recorded
  report_deleted := fun _ _ => .recorded

/-!
## Key-uniqueness invariant (claim C8)

`C8Pre` is the claim's precondition instantiated per traversal frame:
within each node the children's names are unique and every name is a
nonempty single path segment (`TreeOk`); a merge frame additionally
carries the sortedness its caller established.  `C8Cls` locates every
key a frame can record: below `name` for an `inner` frame, and in the
key class of one of the pending children for the loop frames.
-/

/-- Children list as the single-sided loops receive it: distinct segment
names, each child well-formed. -/
def listOkP {α : Type} (l : List (TreeM α)) : Prop :=
  (l.map TreeM.nameOf).Nodup ∧ ∀ c ∈ l, segOk c.nameOf ∧ TreeOk c

/-- Children list as the merge loop receives it: additionally sorted by
the `TraversalNode` order. -/
def sideOkP {α : Type} (l : List (TreeM α)) : Prop :=
  l.Pairwise (fun x y => childLe x y = true) ∧ listOkP l

/-- Precondition of one traversal frame under the claim's hypothesis. -/
def C8Pre {α : Type} : TravCall α → Prop
  | .inner _ e a => (∀ t, e = some t → TreeOk t) ∧ (∀ t, a = some t → TreeOk t)
  | .merge _ es as => sideOkP es ∧ sideOkP as
  | .delOnly _ cs => listOkP cs
  | .addOnly _ cs => listOkP cs

/-- Where the keys recorded by one traversal frame live. -/
def C8Cls {α : Type} : TravCall α → Str → Prop
  | .inner name _ _ => fun k => ∃ s, s ≠ [] ∧ k = appendName name s
  | .merge name es as => fun k => ∃ c, (c ∈ es ∨ c ∈ as) ∧ classOf name c k
  | .delOnly name cs => fun k => ∃ c ∈ cs, classOf name c k
  | .addOnly name cs => fun k => ∃ c ∈ cs, classOf name c k

/-!
## General lemmas
-/

theorem take_appendName (name seg : Str) :
    (appendName name seg).take name.length = name := by
  unfold appendName
  split
  · simp_all
  · simpa using List.take_left name ('/' :: seg)

theorem trav_acc {α : Type} (ds : List (DiffReportM α)) (c : TravCall α) :
    (trav ds c).acc = travName c := by
  induction c using trav.induct ds
  all_goals simp_all [trav, travName, withEvent, afterFrame, take_appendName]
  all_goals split <;> simp_all [take_appendName]

/-!
## Claim C9 — path accumulator restoration
-/

/-- C9: on every exit from a directory frame of the traversal — whether
the frame returns normally or propagates a traversal error — the path
accumulator is restored to exactly its value before the frame was
entered. -/
theorem c9_accumulator_restored {α : Type} (ds : List (DiffReportM α)) (name : Str)
    (expected actual : Option (TreeM α)) :
    (trav ds (.inner name expected actual)).acc = name :=
  trav_acc ds (.inner name expected actual)

/-!
## Claim C1 — leaves below an added directory
-/

/-- C1 (failing evaluation): with `expected` empty and `actual` containing
the directory chain `d/s` with leaf `x`, the traversal records the single
leaf `d/s/x` as `Deleted` — the `addOnly` loop recurses into the
subdirectory `s` with the node on the *expected* side — although the
claim requires `Added` for every leaf beneath a directory present only on
the actual side; `diff(B, A)` also records `Deleted`, so the claimed
`Added↔Deleted` swap between the two orders fails as well. -/
theorem c1_deep_added_leaf_eval :
    (calc_diff [probeDiffer] (.node [] [])
        (.node [] [.node ['d'] [.node ['s'] [.leaf ['x'] 0]]])).events
      = [(['d', '/', 's', '/', 'x'], .recorded .deleted)]
    ∧ (calc_diff [probeDiffer] (.node [] [.node ['d'] [.node ['s'] [.leaf ['x'] 0]]])
        (.node [] [])).events
      = [(['d', '/', 's', '/', 'x'], .recorded .deleted)] := by
  constructor <;>
    simp [calc_diff, trav, sortChildren, appendName, probeDiffer, run_deleted,
      withEvent, afterFrame]

/-!
## Claim C7 — binary differ totality
-/

/-- C7: the binary diff calculator never declines a pair of leaves and its
diff's `equal()` holds exactly when the two contents are byte-for-byte
equal; consequently `run_diff` on a chain whose last element is the binary
differ never returns the `NoDiffReportMatched` error. -/
theorem c7_binary_total_no_match :
    (∀ (n : Str) (e a : FileLeaf),
      BinaryDiffCalculator.diff n e a = .ok ⟨e.content == a.content, e.content, a.content⟩
      ∧ ∀ d : BinaryDiff, BinaryDiffCalculator.diff n e a = .ok d →
          (BinaryDiffCalculator.dEqual d = true ↔ e.content = a.content))
    ∧ ∀ (ds : List (DiffReportM FileLeaf)) (n : Str) (e a : FileLeaf),
        run_diff (ds ++ [binaryDiffReport]) n e a ≠ .errNoMatch := by
  constructor
  · intro n e a
    constructor
    · rfl
    · intro d hd
      simp only [BinaryDiffCalculator] at hd
      cases hd
      simp [BinaryDiffCalculator]
  · intro ds n e a
    induction ds with
    | nil =>
      by_cases hec : e.content = a.content <;>
        simp [run_diff, binaryDiffReport, DiffAndReport, BinaryDiffCalculator,
          BinaryDiffReporter, hec]
    | cons d ds ih =>
      simp only [List.cons_append, run_diff]
      split <;> simp_all

/-!
## Claim C10 — reporter declines pass the pair to the next differ
-/

/-- C10: when a differ's calculator computes a diff but the paired detail
reporter's `report_unchanged` (or `report_modified`) answers
`Unsupported`, the combined `DiffAndReport::diff` is `Unsupported` and
`run_diff` consults the rest of the chain — acceptance is decided jointly
by calculator and reporter. -/
theorem c10_reporter_decline_consults_next {α δ : Type} (c : CalcM α δ) (r : RepM α δ)
    (rest : List (DiffReportM α)) (n : Str) (e a : α) (d : δ)
    (hc : c.diff n e a = .ok d)
    (hr : (if c.dEqual d then r.report_unchanged n d else r.report_modified n d) = .unsupported) :
    (DiffAndReport c r).diff n e a = .unsupported
    ∧ run_diff (DiffAndReport c r :: rest) n e a = run_diff rest n e a := by
  have h1 : (DiffAndReport c r).diff n e a = .unsupported := by
    simp only [DiffAndReport, hc]
    by_cases hq : c.dEqual d = true <;> simp [hq] at hr ⊢ <;> rw [hr]
  exact ⟨h1, by simp only [run_diff, h1]⟩

/-- Witness for C10 at a concrete calculator, reporter and chain. -/
theorem c10_witness :
    (DiffAndReport probeCalc probeRep).diff [] 0 0 = .unsupported
    ∧ run_diff [DiffAndReport probeCalc probeRep, probeDiffer] [] 0 0 =
        run_diff [probeDiffer] [] 0 0 :=
  c10_reporter_decline_consults_next probeCalc probeRep [probeDiffer] [] 0 0 () rfl rfl

/-!
## Claim C2 — text gate of the calculator
-/

/-- C2 (failing evaluation): both sides share a MIME that is neither text
nor known-binary and the contents `[0x61, 0x00]` (`"a"` followed by `NUL`)
are valid UTF-8 containing the control character `NUL`.  The claim's gate
— the `is_text_file` filter, requiring *every* character to be `\n`,
`\r`, `\t` or non-control — rejects the contents, so the claim demands
`Unsupported`; the calculator nevertheless returns a computed diff,
because its filter at lines 118-129 declines only when *all* characters
are disallowed controls (the negation is inverted with respect to
`is_text_file`). -/
theorem c2_control_char_accepted_eval :
    TextDiffCalculator.diff []
        ⟨⟨strOf "application", strOf "x-custom"⟩, [0x61, 0x00]⟩
        ⟨⟨strOf "application", strOf "x-custom"⟩, [0x61, 0x00]⟩
      = .ok ⟨true, [0x61, 0x00], [0x61, 0x00]⟩
    ∧ is_text_file ⟨strOf "application", strOf "x-custom"⟩ [0x61, 0x00] = false := by
  constructor
  · decide
  · decide

/-!
## Claim C3 — self diff is all Unchanged
-/

theorem strCmp_self (s : Str) : strCmp s s = .eq := by
  induction s with
  | nil => rfl
  | cons c cs ih => simp [strCmp, ih]

theorem mem_wtl {α : Type} {c : TreeM α} {cs : List (TreeM α)} (h : c ∈ cs) :
    wt c ≤ wtl cs := by
  induction cs with
  | nil => cases h
  | cons d ds ih =>
    rcases List.mem_cons.mp h with h' | h'
    · subst h'
      simp [wtl]
    · have := ih h'
      simp [wtl]
      omega

theorem run_diff_refl {α : Type} (ds : List (DiffReportM α)) (b : DiffReportM α)
    (hrefl : ∀ d ∈ ds ++ [b], ∀ (n : Str) (x : α),
      d.diff n x x = .unsupported ∨ d.diff n x x = .recorded .unchanged)
    (hb : ∀ (n : Str) (e a : α), b.diff n e a ≠ .unsupported)
    (n : Str) (x : α) : run_diff (ds ++ [b]) n x x = .recorded .unchanged := by
  induction ds with
  | nil =>
    rcases hrefl b (by simp) n x with h | h
    · exact absurd h (hb n x x)
    · simp [run_diff, h]
  | cons d ds ih =>
    rcases hrefl d (by simp) n x with h | h
    · simpa [run_diff, h] using ih (fun d' hd' => hrefl d' (by simp_all))
    · simp [run_diff, h]

theorem merge_self {α : Type} (ds : List (DiffReportM α))
    (hrun : ∀ (n : Str) (x : α), run_diff ds n x x = .recorded .unchanged)
    (l : List (TreeM α)) (name : Str)
    (hnb : ∀ c ∈ l, NoBad c)
    (hih : ∀ c ∈ l, ∀ (nm : Str) (cs2 : List (TreeM α)), c = TreeM.node nm cs2 →
      ∀ p : Str, trav ds (.inner p (some c) (some c)) =
        ⟨(pathsListSorted p (sortChildren cs2)).map (fun k => (k, RunRes.recorded .unchanged)),
          false, p⟩) :
    trav ds (.merge name l l) =
      ⟨(pathsListSorted name l).map (fun k => (k, RunRes.recorded .unchanged)), false, name⟩ := by
  induction l generalizing name with
  | nil => simp [trav, pathsListSorted]
  | cons c l ih =>
    have hnb' : ∀ c' ∈ l, NoBad c' := fun c' h => hnb c' (by simp [h])
    have hih' : ∀ c' ∈ l, ∀ (nm : Str) (cs2 : List (TreeM α)), c' = TreeM.node nm cs2 →
        ∀ p : Str, trav ds (.inner p (some c') (some c')) =
          ⟨(pathsListSorted p (sortChildren cs2)).map (fun k => (k, RunRes.recorded .unchanged)),
            false, p⟩ := fun c' h => hih c' (by simp [h])
    cases c with
    | leaf ln lv =>
      rw [trav]
      simp [strCmp_self, take_appendName, withEvent, hrun, ih name hnb' hih',
        pathsListSorted, childPathsSorted]
    | node nn cs2 =>
      rw [trav]
      simp [strCmp_self, take_appendName, afterFrame,
        hih (TreeM.node nn cs2) (by simp) nn cs2 rfl (appendName name nn),
        ih name hnb' hih', pathsListSorted, childPathsSorted]
    | badNode bn =>
      exact absurd (hnb (TreeM.badNode bn) (by simp)) (by rintro ⟨⟩)

theorem trav_inner_self {α : Type} (ds : List (DiffReportM α))
    (hrun : ∀ (n : Str) (x : α), run_diff ds n x x = .recorded .unchanged) :
    ∀ (N : Nat) (t : TreeM α), wt t ≤ N → NoBad t →
      ∀ (nm : Str) (cs : List (TreeM α)), t = .node nm cs →
      ∀ p : Str, trav ds (.inner p (some t) (some t)) =
        ⟨(pathsListSorted p (sortChildren cs)).map (fun k => (k, RunRes.recorded .unchanged)),
          false, p⟩ := by
  intro N
  induction N using Nat.strong_induction_on with
  | _ N ihN =>
    intro t hwt hnb nm cs ht p
    subst ht
    rw [trav]
    have hnbcs : ∀ c ∈ cs, NoBad c := by
      cases hnb with
      | node _ _ hcs => exact hcs
    apply merge_self ds hrun (sortChildren cs) p
    · intro c hc
      exact hnbcs c (List.mem_mergeSort.mp hc)
    · intro c hc nm2 cs2 hc2 p2
      have hmem : c ∈ cs := List.mem_mergeSort.mp hc
      have hlt : wt c < wt (TreeM.node nm cs) := by
        have := mem_wtl hmem
        simp [wt]
        omega
      exact ihN (wt c) (by omega) c le_rfl (hnbcs c hmem) nm2 cs2 hc2 p2

theorem pathsList_eq_flatMap {α : Type} (name : Str) (l : List (TreeM α)) :
    pathsList name l = l.flatMap (childPaths name) := by
  induction l with
  | nil => simp [pathsList]
  | cons c cs ih => simp [pathsList, ih]

theorem pathsListSorted_eq_flatMap {α : Type} (name : Str) (l : List (TreeM α)) :
    pathsListSorted name l = l.flatMap (childPathsSorted name) := by
  induction l with
  | nil => simp [pathsListSorted]
  | cons c cs ih => simp [pathsListSorted, ih]

theorem childPathsSorted_perm {α : Type} :
    ∀ (N : Nat) (c : TreeM α), wt c ≤ N →
      ∀ name : Str, (childPathsSorted name c).Perm (childPaths name c) := by
  intro N
  induction N using Nat.strong_induction_on with
  | _ N ihN =>
    intro c hwt name
    cases c with
    | leaf ln lv => rw [childPathsSorted, childPaths]
    | badNode bn => rw [childPathsSorted, childPaths]
    | node nn cs =>
      rw [childPathsSorted, childPaths, pathsListSorted_eq_flatMap, pathsList_eq_flatMap]
      refine ((List.Perm.flatMap_left (sortChildren cs) ?_).trans
        (List.Perm.flatMap_right (childPaths (appendName name nn)) (List.mergeSort_perm cs childLe)))
      intro c' hc'
      have hmem : c' ∈ cs := List.mem_mergeSort.mp hc'
      have hlt : wt c' < wt (TreeM.node nn cs) := by
        have := mem_wtl hmem
        simp [wt]
        omega
      exact ihN (wt c') (by omega) c' le_rfl (appendName name nn)

/-- C3: diffing a (traversal-error-free) tree against itself with a differ
chain whose elements all answer identical pairs with `Unsupported` or a
recorded `Unchanged` — as the standard differs do — and whose last element
(the binary differ) never declines a pair, records exactly one entry per
leaf, each with status `Unchanged`: the event list maps the traversal's
sorted leaf keys to `Unchanged`, and those keys are a permutation of the
tree's leaf paths. -/
theorem c3_self_diff_all_unchanged {α : Type} (ds : List (DiffReportM α)) (b : DiffReportM α)
    (hrefl : ∀ d ∈ ds ++ [b], ∀ (n : Str) (x : α),
      d.diff n x x = .unsupported ∨ d.diff n x x = .recorded .unchanged)
    (hb : ∀ (n : Str) (e a : α), b.diff n e a ≠ .unsupported)
    (nm : Str) (cs : List (TreeM α)) (hok : NoBad (.node nm cs)) :
    (calc_diff (ds ++ [b]) (.node nm cs) (.node nm cs)).events
      = (pathsListSorted [] (sortChildren cs)).map (fun k => (k, RunRes.recorded .unchanged))
    ∧ (pathsListSorted [] (sortChildren cs)).Perm (pathsList [] cs) := by
  constructor
  · have := trav_inner_self (ds ++ [b]) (run_diff_refl ds b hrefl hb)
      (wt (TreeM.node nm cs)) (.node nm cs) le_rfl hok nm cs rfl []
    rw [calc_diff, this]
  · rw [pathsListSorted_eq_flatMap, pathsList_eq_flatMap]
    refine (List.Perm.flatMap_left (sortChildren cs) ?_).trans
      (List.Perm.flatMap_right (childPaths []) (List.mergeSort_perm cs childLe))
    intro c hc
    exact childPathsSorted_perm (wt c) c le_rfl []

theorem binary_diff_refl (n : Str) (x : FileLeaf) :
    binaryDiffReport.diff n x x = .recorded .unchanged := by
  simp [binaryDiffReport, DiffAndReport, BinaryDiffCalculator, BinaryDiffReporter]

theorem binary_diff_ne_unsupported (n : Str) (e a : FileLeaf) :
    binaryDiffReport.diff n e a ≠ .unsupported := by
  simp only [binaryDiffReport, DiffAndReport]
  split <;> simp_all [BinaryDiffReporter, BinaryDiffCalculator] <;> split <;> simp

/-- Witness for C3: the chain consisting of the binary differ alone, on a
one-leaf tree. -/
theorem c3_witness :
    (calc_diff ([] ++ [binaryDiffReport])
        (.node [] [.leaf ['a'] (⟨⟨strOf "text", strOf "plain"⟩, [104]⟩ : FileLeaf)])
        (.node [] [.leaf ['a'] (⟨⟨strOf "text", strOf "plain"⟩, [104]⟩ : FileLeaf)])).events
      = (pathsListSorted []
          (sortChildren [.leaf ['a'] (⟨⟨strOf "text", strOf "plain"⟩, [104]⟩ : FileLeaf)])).map
          (fun k => (k, RunRes.recorded .unchanged))
    ∧ (pathsListSorted []
        (sortChildren [.leaf ['a'] (⟨⟨strOf "text", strOf "plain"⟩, [104]⟩ : FileLeaf)])).Perm
        (pathsList [] [.leaf ['a'] (⟨⟨strOf "text", strOf "plain"⟩, [104]⟩ : FileLeaf)]) :=
  c3_self_diff_all_unchanged [] binaryDiffReport
    (by
      intro d hd n x
      simp only [List.nil_append, List.mem_singleton] at hd
      subst hd
      exact Or.inr (binary_diff_refl n x))
    (fun n e a => binary_diff_ne_unsupported n e a)
    [] _
    (NoBad.node _ _ (by
      intro c hc
      simp only [List.mem_singleton] at hc
      subst hc
      exact NoBad.leaf _ _))

/-!
## Claim C6 — JSON structural equality and key order
-/

theorem jsonBeq_refl_all (N : Nat) :
    (∀ v : JsonM, jsz v ≤ N → JsonM.beq v v = true)
    ∧ (∀ l : List JsonM, jszArr l ≤ N → JsonM.beqArr l l = true)
    ∧ (∀ kvs : List (Str × JsonM), jszKvs kvs ≤ N → JsonM.beqKvs kvs kvs = true) := by
  induction N using Nat.strong_induction_on with
  | _ N ihN =>
    refine ⟨?_, ?_, ?_⟩
    · intro v hv
      cases v with
      | null => rw [JsonM.beq]
      | bool b => simp [JsonM.beq]
      | num q => simp [JsonM.beq]
      | str s => simp [JsonM.beq]
      | arr xs =>
        rw [JsonM.beq]
        simp only [jsz] at hv
        rcases N with _ | M
        · omega
        · exact (ihN M (by omega)).2.1 xs (by omega)
      | obj kvs =>
        rw [JsonM.beq]
        simp only [jsz] at hv
        rcases N with _ | M
        · omega
        · exact (ihN M (by omega)).2.2 kvs (by omega)
    · intro l hl
      cases l with
      | nil => rw [JsonM.beqArr]
      | cons x xs =>
        rw [JsonM.beqArr]
        simp only [jszArr] at hl
        rcases N with _ | M
        · omega
        · have h1 := (ihN M (by omega)).1 x (by omega)
          have h2 := (ihN M (by omega)).2.1 xs (by omega)
          simp [h1, h2]
    · intro kvs hk
      cases kvs with
      | nil => rw [JsonM.beqKvs]
      | cons kv kvs =>
        obtain ⟨k, v⟩ := kv
        rw [JsonM.beqKvs]
        simp only [jszKvs] at hk
        rcases N with _ | M
        · omega
        · have h1 := (ihN M (by omega)).1 v (by omega)
          have h2 := (ihN M (by omega)).2.2 kvs (by omega)
          simp [h1, h2]

theorem jsonBeq_refl (v : JsonM) : JsonM.beq v v = true :=
  (jsonBeq_refl_all (jsz v)).1 v le_rfl

theorem lcsDiff_self {β : Type} (eqb : β → β → Bool) (l : List β)
    (heq : ∀ x ∈ l, eqb x x = true) : lcsDiff eqb l l = l.map .eq := by
  induction l with
  | nil => rw [lcsDiff]; rfl
  | cons x xs ih =>
    rw [lcsDiff]
    simp [heq x (by simp), ih (fun y hy => heq y (by simp [hy]))]

theorem json_array_diff_self (xs : List JsonM) :
    (json_array_diff xs xs).all (· == ChangeTag.unchanged) = true := by
  rw [json_array_diff, lcsDiff_self JsonM.beq xs (fun x _ => jsonBeq_refl x)]
  induction xs with
  | nil => rfl
  | cons x xs ih => simpa using ih

theorem json_object_diff_self :
    ∀ (N : Nat) (kvs : List (Str × JsonM)), jszKvs kvs ≤ N →
      (json_object_diff kvs kvs).all (· == ChangeTag.unchanged) = true := by
  intro N
  induction N using Nat.strong_induction_on with
  | _ N ihN =>
    intro kvs hk
    have hek : ∀ k : Str, (objEqualKey kvs kvs k).all (· == ChangeTag.unchanged) = true := by
      intro k
      rw [objEqualKey]
      cases hl : List.lookup k kvs with
      | none => simp [hl]
      | some v =>
        cases v with
        | null => simp [hl, scalarEqUnchanged]
        | bool b => simp [hl, scalarEqUnchanged]
        | num q => simp [hl, scalarEqUnchanged]
        | str s => simp [hl, scalarEqUnchanged]
        | arr xs => simp [hl, json_array_diff_self]
        | obj ikv =>
          have hsz : jsz (JsonM.obj ikv) < 1 + jszKvs kvs := lookup_jsz hl
          simp only [jsz] at hsz
          rcases N with _ | M
          · omega
          · simp [hl, ihN M (by omega) ikv (by omega)]
    rw [json_object_diff,
      lcsDiff_self (fun a b : Str => a == b) (kvs.map Prod.fst) (fun x _ => by simp)]
    generalize kvs.map Prod.fst = ks
    induction ks with
    | nil => simp [objOps]
    | cons k ks ihks =>
      simp only [List.map_cons, objOps, List.all_append, List.all_cons, ihks]
      simp [hek k]

theorem json_diff_self (v : JsonM) :
    (json_diff v v).all (· == ChangeTag.unchanged) = true := by
  cases v with
  | null => rw [json_diff]; rfl
  | bool b => rw [json_diff]; simp
  | num q => rw [json_diff]; simp
  | str s => rw [json_diff]; simp
  | arr xs => rw [json_diff]; simp [json_array_diff_self]
  | obj kvs => rw [json_diff]; simp [json_object_diff_self (jszKvs kvs) kvs le_rfl]

/-- C6: whenever the two parsed JSON values are structurally equal after
the optional recursive key sort, the computed diff's `equal()` is true;
and with `json_ignore_object_key_order` disabled, two objects with the
same key-value pairs in different key order are reported as modified. -/
theorem c6_json_equal_and_key_order :
    (∀ (opt : Bool) (e a : JsonM),
      (if opt then sort_all_objects e else e) = (if opt then sort_all_objects a else a) →
      jsonEqual (json_diff_calc opt e a) = true)
    ∧ jsonEqual (json_diff_calc false
        (.obj [(['a'], .num 1), (['b'], .num 2)])
        (.obj [(['b'], .num 2), (['a'], .num 1)])) = false := by
  constructor
  · intro opt e a h
    rw [json_diff_calc]
    simp only [h]
    simp [json_diff_self, jsonEqual]
  · rw [json_diff_calc]
    simp only [Bool.false_eq_true, if_false]
    rw [json_diff, json_object_diff]
    simp only [List.map_cons, List.map_nil]
    rw [lcsDiff]
    simp +decide [lcsDiff, countEq, DOp.isEq, objOps, objEqualKey, List.lookup,
      scalarEqUnchanged, jsonEqual]

/-- Witness for C6's first conjunct at concrete values: the two objects
agree after the recursive key sort. -/
theorem c6_witness :
    jsonEqual (json_diff_calc true
      (.obj [(['a'], .num 1), (['b'], .num 2)])
      (.obj [(['b'], .num 2), (['a'], .num 1)])) = true :=
  c6_json_equal_and_key_order.1 true
    (.obj [(['a'], .num 1), (['b'], .num 2)])
    (.obj [(['b'], .num 2), (['a'], .num 1)])
    (by simp +decide [sort_all_objects, sortKvs, kvLe, strCmp, List.mergeSort])

/-!
## Claim C5 — image diff counting and size handling
-/

theorem pixel_diff_self (lab : Px → ℝ × ℝ × ℝ × ℝ) (md : ℝ) (hmd : 0 ≤ md) (p : Px) :
    pixel_diff lab md p p = false := by
  rw [pixel_diff]
  obtain ⟨l, a, b, alpha⟩ := lab p
  simp only [sub_self, mul_zero, zero_mul, add_zero, zero_add, Real.sqrt_zero]
  rw [if_neg (by exact not_lt.mpr hmd)]

/-- C5: the image comparison counts as differing exactly the overlap
pixels whose OkLab+alpha distance exceeds `max_distance` plus every pixel
outside the `min×min` overlap, takes `total_pixels = max_width ×
max_height`, produces a `max×max` diff image, and reports `equal()` iff
`diff_ratio ≤ max_diff_ratio`; a `2×2` versus `3×3` comparison with
identical overlap yields `5` differing pixels of `9` and a `3×3` diff
image. -/
theorem c5_image_diff_counts (lab : Px → ℝ × ℝ × ℝ × ℝ) (md : ℝ) (hmd : 0 ≤ md) (mr : ℚ)
    (e a : RgbaImageM) :
    ((compare (pixel_diff lab md) e a).1.diff_pixels
        = ((Finset.range (min e.height a.height) ×ˢ Finset.range (min e.width a.width)).filter
            (fun yx => pixel_diff lab md (e.pix yx.2 yx.1) (a.pix yx.2 yx.1))).card
          + (max e.width a.width - min e.width a.width) * min e.height a.height
          + (max e.height a.height - min e.height a.height) * max e.width a.width)
    ∧ (compare (pixel_diff lab md) e a).1.total_pixels = max e.width a.width * max e.height a.height
    ∧ (compare (pixel_diff lab md) e a).2.width = max e.width a.width
    ∧ (compare (pixel_diff lab md) e a).2.height = max e.height a.height
    ∧ (image_equal (pixel_diff lab md) mr e a = true
        ↔ (compare (pixel_diff lab md) e a).1.diff_ratio ≤ mr)
    ∧ (compare (pixel_diff lab md)
        ⟨2, 2, fun _ _ => ⟨0, 0, 0, 255⟩⟩ ⟨3, 3, fun _ _ => ⟨0, 0, 0, 255⟩⟩).1.diff_pixels = 5
    ∧ (compare (pixel_diff lab md)
        ⟨2, 2, fun _ _ => ⟨0, 0, 0, 255⟩⟩ ⟨3, 3, fun _ _ => ⟨0, 0, 0, 255⟩⟩).1.total_pixels = 9
    ∧ (compare (pixel_diff lab md)
        ⟨2, 2, fun _ _ => ⟨0, 0, 0, 255⟩⟩ ⟨3, 3, fun _ _ => ⟨0, 0, 0, 255⟩⟩).1.diff_ratio = 5 / 9
    ∧ (compare (pixel_diff lab md)
        ⟨2, 2, fun _ _ => ⟨0, 0, 0, 255⟩⟩ ⟨3, 3, fun _ _ => ⟨0, 0, 0, 255⟩⟩).2.width = 3
    ∧ (compare (pixel_diff lab md)
        ⟨2, 2, fun _ _ => ⟨0, 0, 0, 255⟩⟩ ⟨3, 3, fun _ _ => ⟨0, 0, 0, 255⟩⟩).2.height = 3 := by
  refine ⟨rfl, rfl, rfl, rfl, ?_, ?_, by norm_num [compare], ?_, by norm_num [compare],
    by norm_num [compare]⟩
  · simp [image_equal]
  · simp [compare, pixel_diff_self lab md hmd]
  · simp [compare, pixel_diff_self lab md hmd]

/-- Witness for C5 at a concrete conversion, thresholds and images. -/
theorem c5_witness :
    ((compare (pixel_diff (fun _ => (0, 0, 0, 0)) 0)
        ⟨1, 1, fun _ _ => ⟨0, 0, 0, 0⟩⟩ ⟨1, 1, fun _ _ => ⟨0, 0, 0, 0⟩⟩).1.diff_pixels
        = ((Finset.range 1 ×ˢ Finset.range 1).filter
            (fun yx => pixel_diff (fun _ => (0, 0, 0, 0)) 0
              ((⟨1, 1, fun _ _ => ⟨0, 0, 0, 0⟩⟩ : RgbaImageM).pix yx.2 yx.1)
              ((⟨1, 1, fun _ _ => ⟨0, 0, 0, 0⟩⟩ : RgbaImageM).pix yx.2 yx.1))).card
          + (1 - 1) * 1 + (1 - 1) * 1)
    ∧ (compare (pixel_diff (fun _ => (0, 0, 0, 0)) 0)
        ⟨1, 1, fun _ _ => ⟨0, 0, 0, 0⟩⟩ ⟨1, 1, fun _ _ => ⟨0, 0, 0, 0⟩⟩).1.total_pixels = 1 * 1
    ∧ (compare (pixel_diff (fun _ => (0, 0, 0, 0)) 0)
        ⟨1, 1, fun _ _ => ⟨0, 0, 0, 0⟩⟩ ⟨1, 1, fun _ _ => ⟨0, 0, 0, 0⟩⟩).2.width = 1
    ∧ (compare (pixel_diff (fun _ => (0, 0, 0, 0)) 0)
        ⟨1, 1, fun _ _ => ⟨0, 0, 0, 0⟩⟩ ⟨1, 1, fun _ _ => ⟨0, 0, 0, 0⟩⟩).2.height = 1
    ∧ (image_equal (pixel_diff (fun _ => (0, 0, 0, 0)) 0) 0
        ⟨1, 1, fun _ _ => ⟨0, 0, 0, 0⟩⟩ ⟨1, 1, fun _ _ => ⟨0, 0, 0, 0⟩⟩ = true
        ↔ (compare (pixel_diff (fun _ => (0, 0, 0, 0)) 0)
            ⟨1, 1, fun _ _ => ⟨0, 0, 0, 0⟩⟩ ⟨1, 1, fun _ _ => ⟨0, 0, 0, 0⟩⟩).1.diff_ratio ≤ 0)
    ∧ (compare (pixel_diff (fun _ => (0, 0, 0, 0)) 0)
        ⟨2, 2, fun _ _ => ⟨0, 0, 0, 255⟩⟩ ⟨3, 3, fun _ _ => ⟨0, 0, 0, 255⟩⟩).1.diff_pixels = 5
    ∧ (compare (pixel_diff (fun _ => (0, 0, 0, 0)) 0)
        ⟨2, 2, fun _ _ => ⟨0, 0, 0, 255⟩⟩ ⟨3, 3, fun _ _ => ⟨0, 0, 0, 255⟩⟩).1.total_pixels = 9
    ∧ (compare (pixel_diff (fun _ => (0, 0, 0, 0)) 0)
        ⟨2, 2, fun _ _ => ⟨0, 0, 0, 255⟩⟩ ⟨3, 3, fun _ _ => ⟨0, 0, 0, 255⟩⟩).1.diff_ratio = 5 / 9
    ∧ (compare (pixel_diff (fun _ => (0, 0, 0, 0)) 0)
        ⟨2, 2, fun _ _ => ⟨0, 0, 0, 255⟩⟩ ⟨3, 3, fun _ _ => ⟨0, 0, 0, 255⟩⟩).2.width = 3
    ∧ (compare (pixel_diff (fun _ => (0, 0, 0, 0)) 0)
        ⟨2, 2, fun _ _ => ⟨0, 0, 0, 255⟩⟩ ⟨3, 3, fun _ _ => ⟨0, 0, 0, 255⟩⟩).2.height = 3 :=
  c5_image_diff_counts (fun _ => (0, 0, 0, 0)) 0 le_rfl 0
    ⟨1, 1, fun _ _ => ⟨0, 0, 0, 0⟩⟩ ⟨1, 1, fun _ _ => ⟨0, 0, 0, 0⟩⟩

/-!
## Claim C4 — audio equality with zero tolerances
-/

theorem rnd_zero : rnd 0 = 0 := by
  rw [rnd]
  norm_num

theorem map_getD_range {γ : Type} (l : List γ) (d : γ) :
    (List.range l.length).map (fun i => l.getD i d) = l := by
  apply List.ext_getElem
  · simp
  · intro i h1 h2
    simp at h1
    simp [List.getD, List.getElem?_eq_getElem h1]

theorem align_zero (e a : List (List ℝ)) : align_samples e a 0 = (e, a, 0) := by
  rw [align_samples]
  have hr1 : List.range 1 = [0] := rfl
  simp only [lt_irrefl, if_false, Int.toNat_zero, mul_zero, zero_add, hr1,
    List.map_cons, List.map_nil, List.foldl_cons, List.foldl_nil, neg_zero, Nat.cast_zero]
  refine Prod.ext ?_ (Prod.ext ?_ rfl)
  · show (List.range e.length).map _ = e
    rw [show (List.range e.length).map _ = (List.range e.length).map (fun i => e.getD i []) from ?_]
    · exact map_getD_range e []
    · apply List.map_congr_left
      intro i _
      cases h : a[i]? <;> simp [h, overlap_range]
  · show (List.range a.length).map _ = a
    rw [show (List.range a.length).map _ = (List.range a.length).map (fun i => a.getD i []) from ?_]
    · exact map_getD_range a []
    · apply List.map_congr_left
      intro i _
      cases h : e[i]? <;> simp [h, overlap_range]

theorem zip_self_eq_map {γ : Type} (l : List γ) : l.zip l = l.map (fun x => (x, x)) := by
  induction l with
  | nil => rfl
  | cons x xs ih => simp [List.zip_cons_cons, ih]

theorem summarize_self (e a : List (List ℝ)) (hne : e ≠ []) (hlen : e.length = a.length)
    (hloud : ∀ p ∈ e.zip a, loudness_db p.1 = loudness_db p.2) :
    summarize_channel_metrics e a = some 0 := by
  rw [summarize_channel_metrics, if_neg]
  · congr 1
    have : ∀ (l : List (List ℝ × List ℝ)) (m : ℝ), 0 ≤ m →
        (∀ p ∈ l, loudness_db p.1 = loudness_db p.2) →
        (l.foldl (fun m p => if p.1.isEmpty || p.2.isEmpty then m
            else max m |loudness_db p.1 - loudness_db p.2|) m) = m := by
      intro l
      induction l with
      | nil => intro m _ _; rfl
      | cons p ps ih =>
        intro m hm hl
        rw [List.foldl_cons]
        by_cases hp : p.1.isEmpty || p.2.isEmpty
        · rw [if_pos hp]
          exact ih m hm (fun q hq => hl q (by simp [hq]))
        · rw [if_neg hp, hl p (by simp), sub_self, abs_zero, max_eq_left hm]
          exact ih m hm (fun q hq => hl q (by simp [hq]))
    exact this (e.zip a) 0 le_rfl hloud
  · have ha : a ≠ [] := by
      intro h
      rw [h] at hlen
      simp at hlen
      exact hne hlen
    have h1 := List.length_pos_of_ne_nil hne
    have h2 := List.length_pos_of_ne_nil ha
    omega

theorem diff_spectrograms_self_fst (tol : ℝ) (htol : 0 ≤ tol) (f : List (Nat → ℝ)) :
    (diff_spectrograms tol f f).1 = 0 := by
  rw [diff_spectrograms]
  apply List.sum_eq_zero
  intro x hx
  simp only [List.mem_map, List.mem_range, max_self] at hx
  obtain ⟨i, hi, rfl⟩ := hx
  apply List.sum_eq_zero
  intro y hy
  simp only [List.mem_map, List.mem_range] at hy
  obtain ⟨r, hr, rfl⟩ := hy
  rw [List.length_eq_zero, List.filter_eq_nil_iff]
  intro yy _
  simp only [decide_eq_true_eq]
  have hsome : f[i]? = some (f.get ⟨i, hi⟩) := List.getElem?_eq_getElem hi
  simp only [cellBad, hsome]
  rw [sub_self, abs_zero]
  exact htol.not_lt

theorem build_diff_rate_self (tol : ℝ) (htol : 0 ≤ tol) (e a : List (List ℝ))
    (hcomp : ∀ p ∈ e.zip a, compute p.1 = compute p.2) :
    build_diff_rate tol (e.map compute) (a.map compute) = 0 := by
  rw [build_diff_rate]
  rw [List.zip_map]
  have hz : ∀ {γ : Type} (L : List γ), (L.map (fun _ => (0 : ℝ))).sum = 0 := by
    intro γ L
    induction L with
    | nil => rfl
    | cons x xs ih => simp [ih]
  rw [show ((e.zip a).map (Prod.map compute compute)).map _
      = ((e.zip a).map (Prod.map compute compute)).map (fun _ => (0 : ℝ)) from ?_]
  · rw [hz]
    exact zero_div _
  · apply List.map_congr_left
    intro p hp
    simp only [List.mem_map] at hp
    obtain ⟨q, hq, rfl⟩ := hp
    have hc := hcomp q hq
    simp only [Prod.map]
    rw [show compute q.2 = compute q.1 from hc.symm]
    rw [diff_spectrograms_self_fst tol htol (compute q.1)]
    split <;> simp

theorem audio_status_zero_eq (e a : AudioDecodedM)
    (hr : e.sample_rate = a.sample_rate) (hc : e.channels = a.channels)
    (hlen : e.samples.length = a.samples.length) (hne : e.samples ≠ [])
    (hcomp : ∀ p ∈ e.samples.zip a.samples, compute p.1 = compute p.2)
    (hloud : ∀ p ∈ e.samples.zip a.samples, loudness_db p.1 = loudness_db p.2) :
    audio_diff_status 0 0 0 0 e a = .equalS := by
  have hal : align_samples e.samples a.samples (rnd (0 * (e.sample_rate : ℝ)))
      = (e.samples, a.samples, 0) := by
    rw [zero_mul, rnd_zero, align_zero]
  rw [audio_diff_status, if_neg (by simp [hr, hc]), if_pos]
  constructor
  · rw [hal, summarize_self e.samples a.samples hne hlen hloud]
  · rw [hal, build_diff_rate_self 0 le_rfl e.samples a.samples hcomp]

theorem fftWindow_zero : fftWindow 0 = 0 := by
  rw [fftWindow]
  norm_num

theorem single_buf_zero (x : ℝ) (i j : Nat) :
    (([x] : List ℝ).getD (i * (FFT_WINDOW_SIZE / 2) + j) 0) * fftWindow j = 0 := by
  cases h : i * (FFT_WINDOW_SIZE / 2) + j with
  | zero =>
    have hj : j = 0 := by omega
    rw [hj, fftWindow_zero, mul_zero]
  | succ n =>
    simp [List.getD]

theorem compute_single (c d : ℝ) : compute [c] = compute [d] := by
  rw [compute, compute]
  simp only [List.length_singleton]
  have hFG : (fun (i : Nat) (k : Nat) => Real.logb 10 (Complex.abs
        (dft (fun j => ((([c] : List ℝ).getD (i * (FFT_WINDOW_SIZE / 2) + j) 0)
          * fftWindow j : ℝ)) k)))
      = (fun (i : Nat) (k : Nat) => Real.logb 10 (Complex.abs
        (dft (fun j => ((([d] : List ℝ).getD (i * (FFT_WINDOW_SIZE / 2) + j) 0)
          * fftWindow j : ℝ)) k))) := by
    funext i k
    have hb : (fun j => (((([c] : List ℝ).getD (i * (FFT_WINDOW_SIZE / 2) + j) 0)
          * fftWindow j : ℝ) : ℂ))
        = (fun j => (((([d] : List ℝ).getD (i * (FFT_WINDOW_SIZE / 2) + j) 0)
          * fftWindow j : ℝ) : ℂ)) := by
      funext j
      rw [single_buf_zero c i j, single_buf_zero d i j]
    rw [hb]
  rw [hFG]

theorem loudness_single_neg (c : ℝ) : loudness_db [c] = loudness_db [-c] := by
  rw [loudness_db, loudness_db]
  norm_num

/-- C4 counterexample to the claimed "only if" direction: with every tolerance 0 and
matching `(sample_rate, channels)`, the decoded audios `[[1]]` and `[[-1]]` have different
per-channel sample sequences yet compare equal. The Hann window `sin(π·i/2047)` is 0 at
index 0, so both one-sample channels yield the all-zero windowed buffer, hence identical
spectrograms, and `x²` erases the sign in the loudness power. -/
theorem c4_zero_tolerance_not_bit_identical :
    audio_diff_status 0 0 0 0 ⟨44100, 1, [[1]]⟩ ⟨44100, 1, [[-1]]⟩ = .equalS
    ∧ (⟨44100, 1, [[1]]⟩ : AudioDecodedM).samples
      ≠ (⟨44100, 1, [[-1]]⟩ : AudioDecodedM).samples := by
  constructor
  · apply audio_status_zero_eq ⟨44100, 1, [[1]]⟩ ⟨44100, 1, [[-1]]⟩ rfl rfl rfl (by simp)
    · intro p hp
      simp only [List.zip_cons_cons, List.zip_nil_right, List.mem_singleton] at hp
      rw [hp]
      exact compute_single 1 (-1)
    · intro p hp
      simp only [List.zip_cons_cons, List.zip_nil_right, List.mem_singleton] at hp
      rw [hp]
      exact loudness_single_neg 1
  · norm_num

/-- C4 (amended): for the audio differ with all tolerances 0, if the two decoded audios
have matching `(sample_rate, channels)`, a nonempty channel list, and bit-identical
per-channel sample sequences, then the comparison yields Equal. The converse claimed by
the spec is false (see the counterexample): distinct samples can still compare equal. -/
theorem c4_bit_identical_audio_equal (e a : AudioDecodedM)
    (hr : e.sample_rate = a.sample_rate) (hc : e.channels = a.channels)
    (hs : e.samples = a.samples) (hne : e.samples ≠ []) :
    audio_diff_status 0 0 0 0 e a = .equalS := by
  apply audio_status_zero_eq e a hr hc (by rw [hs]) hne
  · intro p hp
    rw [← hs, zip_self_eq_map] at hp
    simp only [List.mem_map] at hp
    obtain ⟨x, _, rfl⟩ := hp
    rfl
  · intro p hp
    rw [← hs, zip_self_eq_map] at hp
    simp only [List.mem_map] at hp
    obtain ⟨x, _, rfl⟩ := hp
    rfl

theorem c4_witness :
    audio_diff_status 0 0 0 0 ⟨8000, 2, [[2, 3], [4]]⟩ ⟨8000, 2, [[2, 3], [4]]⟩ = .equalS :=
  c4_bit_identical_audio_equal ⟨8000, 2, [[2, 3], [4]]⟩ ⟨8000, 2, [[2, 3], [4]]⟩
    rfl rfl rfl (by simp)

/-!
## Claim C8 — order and key-class lemmas
-/

theorem strCmp_eq : ∀ {x y : Str}, strCmp x y = .eq → x = y
  | [], [], _ => rfl
  | [], _ :: _, h => by simp [strCmp] at h
  | _ :: _, [], h => by simp [strCmp] at h
  | a :: as, b :: bs, h => by
    rw [strCmp] at h
    by_cases hab : a < b
    · simp [hab] at h
    · by_cases hba : b < a
      · simp [hab, hba] at h
      · have : a = b := le_antisymm (not_lt.mp hba) (not_lt.mp hab)
        subst this
        simp [hab] at h
        rw [strCmp_eq h]

theorem strCmp_swap : ∀ (x y : Str), strCmp y x = (strCmp x y).swap
  | [], [] => rfl
  | [], _ :: _ => rfl
  | _ :: _, [] => rfl
  | a :: as, b :: bs => by
    rw [strCmp, strCmp]
    by_cases hab : a < b
    · simp [hab, lt_asymm hab, Ordering.swap]
    · by_cases hba : b < a
      · simp [hab, hba, Ordering.swap]
      · simp [hab, hba, strCmp_swap as bs]

theorem strCmp_lt_trans : ∀ {x y z : Str}, strCmp x y = .lt → strCmp y z = .lt →
    strCmp x z = .lt
  | [], [], _, h1, _ => by simp [strCmp] at h1
  | _ :: _, [], _, h1, _ => by simp [strCmp] at h1
  | [], _ :: _, [], _, h2 => by simp [strCmp] at h2
  | [], _ :: _, _ :: _, _, _ => by simp [strCmp]
  | _ :: _, _ :: _, [], _, h2 => by simp [strCmp] at h2
  | a :: as, b :: bs, c :: cs, h1, h2 => by
    rw [strCmp] at h1 h2 ⊢
    by_cases hab : a < b
    · by_cases hbc : b < c
      · simp [lt_trans hab hbc]
      · by_cases hcb : c < b
        · simp [hbc, hcb] at h2
        · have : b = c := le_antisymm (not_lt.mp hcb) (not_lt.mp hbc)
          subst this
          simp [hab]
    · by_cases hba : b < a
      · simp [hab, hba] at h1
      · have : a = b := le_antisymm (not_lt.mp hba) (not_lt.mp hab)
        subst this
        by_cases hac : a < c
        · simp [hac]
        · by_cases hca : c < a
          · simp [hac, hca] at h2
          · simp [hac, hca] at h1 h2 ⊢
            exact strCmp_lt_trans h1 h2

theorem strCmp_ne_of_lt {x y : Str} (h : strCmp x y = .lt) : x ≠ y := by
  intro he
  subst he
  rw [strCmp_self] at h
  exact absurd h (by simp)

theorem strCmp_le_cases {x y : Str} (h : strCmp x y ≠ .gt) :
    strCmp x y = .lt ∨ x = y := by
  cases ho : strCmp x y with
  | lt => exact Or.inl rfl
  | eq => exact Or.inr (strCmp_eq ho)
  | gt => exact absurd ho h

theorem strCmp_lt_le_trans {x y z : Str} (h1 : strCmp x y = .lt)
    (h2 : strCmp y z ≠ .gt) : strCmp x z = .lt := by
  rcases strCmp_le_cases h2 with h | h
  · exact strCmp_lt_trans h1 h
  · rw [← h]
    exact h1

theorem strCmp_le_trans {x y z : Str} (h1 : strCmp x y ≠ .gt)
    (h2 : strCmp y z ≠ .gt) : strCmp x z ≠ .gt := by
  rcases strCmp_le_cases h1 with h | h
  · rw [strCmp_lt_le_trans h h2]
    simp
  · rw [h]
    exact h2

theorem strCmp_not_gt_or (x y : Str) : strCmp x y ≠ .gt ∨ strCmp y x ≠ .gt := by
  cases ho : strCmp x y with
  | lt => exact Or.inl (by simp [ho])
  | eq => exact Or.inl (by simp [ho])
  | gt =>
    right
    rw [strCmp_swap, ho]
    simp [Ordering.swap]

theorem childLe_eq_not_gt {α : Type} (x y : TreeM α) :
    childLe x y = true ↔ childCmp x y ≠ .gt := by
  rw [childLe]
  cases h : childCmp x y <;> decide

theorem childLe_trans {α : Type} (a b c : TreeM α) (h1 : childLe a b = true)
    (h2 : childLe b c = true) : childLe a c = true := by
  simp only [childLe_eq_not_gt, childCmp] at h1 h2 ⊢
  cases ha : a.isLeaf <;> cases hb : b.isLeaf <;> cases hc : c.isLeaf <;> simp_all
  · exact strCmp_le_trans h1 h2
  · exact strCmp_le_trans h1 h2

theorem childLe_total {α : Type} (a b : TreeM α) :
    (childLe a b || childLe b a) = true := by
  simp only [Bool.or_eq_true, childLe_eq_not_gt, childCmp]
  cases ha : a.isLeaf <;> cases hb : b.isLeaf <;> simp_all
  · exact strCmp_not_gt_or a.nameOf b.nameOf
  · exact strCmp_not_gt_or a.nameOf b.nameOf

theorem strict_chain {α : Type} {x y z : TreeM α} (h1 : childCmp x y = .lt)
    (h2 : childLe y z = true) (hk : x.isLeaf = z.isLeaf) : x.nameOf ≠ z.nameOf := by
  simp only [childLe_eq_not_gt] at h2
  simp only [childCmp] at h1 h2
  cases hx : x.isLeaf <;> cases hy : y.isLeaf <;> cases hz : z.isLeaf <;> simp_all
  · exact strCmp_ne_of_lt (strCmp_lt_le_trans h1 h2)
  · exact strCmp_ne_of_lt (strCmp_lt_le_trans h1 h2)

theorem leaf_head_leaves {α : Type} {x : TreeM α} {l : List (TreeM α)}
    (hp : (x :: l).Pairwise (fun a b => childLe a b = true)) (hx : x.isLeaf = true) :
    ∀ c ∈ l, c.isLeaf = true := by
  intro c hc
  have hle := (List.pairwise_cons.mp hp).1 c hc
  by_contra hcl
  simp only [Bool.not_eq_true] at hcl
  rw [childLe_eq_not_gt] at hle
  simp only [childCmp, hx, hcl] at hle
  exact hle rfl

theorem appendName_inj {name s t : Str} (h : appendName name s = appendName name t) :
    s = t := by
  unfold appendName at h
  split at h <;> simp_all

theorem appendName_appendName (name seg t : Str) (h : seg ≠ []) :
    appendName (appendName name seg) t = appendName name (seg ++ '/' :: t) := by
  by_cases hn : name = []
  · subst hn
    simp [appendName, h]
  · simp [appendName, hn, h]

theorem firstSeg_append {n : Str} (r : Str) (h : '/' ∉ n) :
    firstSeg (n ++ '/' :: r) = n := by
  unfold firstSeg
  induction n with
  | nil => simp [List.takeWhile]
  | cons a as ih =>
    have ha : a ≠ '/' := fun he => h (by simp [he])
    simp only [List.cons_append, List.takeWhile_cons]
    simp [ha, ih (fun he => h (by simp [he]))]

theorem classOf_disjoint {α : Type} {name : Str} {c c' : TreeM α} {k : Str}
    (h1 : segOk c.nameOf) (h2 : segOk c'.nameOf)
    (hne : c.isLeaf = c'.isLeaf → c.nameOf ≠ c'.nameOf)
    (hc : classOf name c k) (hc' : classOf name c' k) : False := by
  unfold classOf at hc hc'
  by_cases l1 : c.isLeaf <;> by_cases l2 : c'.isLeaf <;> simp [l1, l2] at hc hc' hne
  · exact hne (appendName_inj (hc ▸ hc'))
  · obtain ⟨r, hr⟩ := hc'
    have := appendName_inj (hc ▸ hr)
    exact h1.2 (this ▸ (by simp : '/' ∈ c'.nameOf ++ '/' :: r))
  · obtain ⟨r, hr⟩ := hc
    have := appendName_inj (hr ▸ hc')
    exact h2.2 (this ▸ (by simp : '/' ∈ c.nameOf ++ '/' :: r))
  · obtain ⟨r, hr⟩ := hc
    obtain ⟨r', hr'⟩ := hc'
    have heq := appendName_inj (hr ▸ hr')
    have : c.nameOf = c'.nameOf := by
      have e1 := firstSeg_append r h1.2
      have e2 := firstSeg_append r' h2.2
      rw [← e1, ← e2, heq]
    exact hne this

theorem afterFrame_events (name : Str) (o rest : FrameOut) :
    (afterFrame name o rest).events
      = if o.aborted then o.events else o.events ++ rest.events := by
  rw [afterFrame]
  split <;> simp

theorem nodup_glue {ks1 ks2 : List Str} {P Q : Str → Prop}
    (h1 : ks1.Nodup) (h2 : ks2.Nodup)
    (hP : ∀ k ∈ ks1, P k) (hQ : ∀ k ∈ ks2, Q k)
    (hdisj : ∀ k, P k → Q k → False) :
    (ks1 ++ ks2).Nodup := by
  rw [List.nodup_append]
  exact ⟨h1, h2, fun k hk1 hk2 => hdisj k (hP k hk1) (hQ k hk2)⟩

theorem sortChildren_sorted {α : Type} (cs : List (TreeM α)) :
    (sortChildren cs).Pairwise (fun a b => childLe a b = true) :=
  List.sorted_mergeSort (fun a b c => childLe_trans a b c)
    (fun a b => childLe_total a b) cs

theorem sortChildren_nodupNames {α : Type} {cs : List (TreeM α)}
    (h : (cs.map TreeM.nameOf).Nodup) :
    ((sortChildren cs).map TreeM.nameOf).Nodup :=
  (((List.mergeSort_perm cs childLe).map TreeM.nameOf).nodup_iff).mpr h

theorem mem_sortChildren {α : Type} {c : TreeM α} {cs : List (TreeM α)} :
    c ∈ sortChildren cs ↔ c ∈ cs :=
  List.mem_mergeSort

theorem innerKeys_class {α : Type} {name en : Str} (hseg : segOk en) (c : TreeM α)
    (hleaf : c.isLeaf = false) (hname : c.nameOf = en) {k : Str}
    (hk : ∃ s, s ≠ [] ∧ k = appendName (appendName name en) s) :
    classOf name c k := by
  obtain ⟨s, hs, rfl⟩ := hk
  unfold classOf
  rw [hleaf]
  simp only [Bool.false_eq_true, if_false, hname]
  exact ⟨s, by rw [appendName_appendName name en s hseg.1]⟩

theorem class_innerPost {α : Type} {name : Str} {c : TreeM α} (hseg : segOk c.nameOf)
    {k : Str} (hk : classOf name c k) : ∃ s, s ≠ [] ∧ k = appendName name s := by
  unfold classOf at hk
  by_cases hl : c.isLeaf
  · rw [if_pos hl] at hk
    exact ⟨c.nameOf, hseg.1, hk⟩
  · rw [if_neg hl] at hk
    obtain ⟨r, hr⟩ := hk
    exact ⟨c.nameOf ++ '/' :: r, by simp, hr⟩

theorem childLe_refl {α : Type} (x : TreeM α) : childLe x x = true := by
  rw [childLe_eq_not_gt]
  cases hx : x.isLeaf <;> simp [childCmp, hx, strCmp_self]

theorem clsMerge_iff {α : Type} {name : Str} {es as : List (TreeM α)} {k : Str} :
    C8Cls (.merge name es as) k ↔ ∃ c, (c ∈ es ∨ c ∈ as) ∧ classOf name c k := Iff.rfl

theorem clsDel_iff {α : Type} {name : Str} {cs : List (TreeM α)} {k : Str} :
    C8Cls (.delOnly name cs) k ↔ ∃ c ∈ cs, classOf name c k := Iff.rfl

theorem clsAdd_iff {α : Type} {name : Str} {cs : List (TreeM α)} {k : Str} :
    C8Cls (.addOnly name cs) k ↔ ∃ c ∈ cs, classOf name c k := Iff.rfl

theorem clsInner_iff {α : Type} {name : Str} {e a : Option (TreeM α)} {k : Str} :
    C8Cls (.inner name e a) k ↔ ∃ s, s ≠ [] ∧ k = appendName name s := Iff.rfl

theorem preMerge_iff {α : Type} {name : Str} {es as : List (TreeM α)} :
    C8Pre (.merge name es as) ↔ sideOkP es ∧ sideOkP as := Iff.rfl

theorem preInner_both {α : Type} {name : Str} {e a : TreeM α} (he : TreeOk e)
    (ha : TreeOk a) : C8Pre (.inner name (some e) (some a)) :=
  ⟨fun t ht => Option.some.inj ht ▸ he, fun t ht => Option.some.inj ht ▸ ha⟩

theorem preInner_left {α : Type} {name : Str} {e : TreeM α} (he : TreeOk e) :
    C8Pre (.inner name (some e) none) :=
  ⟨fun t ht => Option.some.inj ht ▸ he, fun t ht => Option.noConfusion ht⟩

theorem preInner_right {α : Type} {name : Str} {a : TreeM α} (ha : TreeOk a) :
    C8Pre (.inner name none (some a)) :=
  ⟨fun t ht => Option.noConfusion ht, fun t ht => Option.some.inj ht ▸ ha⟩

theorem listOkP_of_node {α : Type} {n : Str} {cs : List (TreeM α)}
    (h : TreeOk (.node n cs)) : listOkP cs := by
  cases h with
  | node _ _ hnd hseg hcs => exact ⟨hnd, fun c hc => ⟨hseg c hc, hcs c hc⟩⟩

theorem sideOkP_sort {α : Type} {n : Str} {cs : List (TreeM α)}
    (h : TreeOk (.node n cs)) : sideOkP (sortChildren cs) := by
  have hl := listOkP_of_node h
  exact ⟨sortChildren_sorted cs,
    sortChildren_nodupNames hl.1,
    fun c hc => hl.2 c (mem_sortChildren.mp hc)⟩

theorem listOkP_cons {α : Type} {x : TreeM α} {l : List (TreeM α)}
    (h : listOkP (x :: l)) : listOkP l := by
  have h1 := h.1
  simp only [List.map_cons] at h1
  exact ⟨(List.nodup_cons.mp h1).2, fun c hc => h.2 c (List.mem_cons_of_mem x hc)⟩

theorem sideOkP_cons {α : Type} {x : TreeM α} {l : List (TreeM α)}
    (h : sideOkP (x :: l)) : sideOkP l :=
  ⟨(List.pairwise_cons.mp h.1).2, listOkP_cons h.2⟩

theorem listOkP_head_ne {α : Type} {x : TreeM α} {l : List (TreeM α)}
    (h : listOkP (x :: l)) : ∀ c ∈ l, x.nameOf ≠ c.nameOf := by
  intro c hc he
  have h1 := h.1
  simp only [List.map_cons] at h1
  exact (List.nodup_cons.mp h1).1 (he ▸ List.mem_map_of_mem TreeM.nameOf hc)

theorem cross_lt_ne {α : Type} {x y : TreeM α} {l : List (TreeM α)}
    (hlt : childCmp x y = .lt)
    (hp : (y :: l).Pairwise (fun a b => childLe a b = true)) :
    ∀ c ∈ y :: l, x.isLeaf = c.isLeaf → x.nameOf ≠ c.nameOf := by
  intro c hc hk
  rcases List.mem_cons.mp hc with rfl | hc
  · exact strict_chain hlt (childLe_refl c) hk
  · exact strict_chain hlt ((List.pairwise_cons.mp hp).1 c hc) hk

theorem post_mono {E : List (Str × RunRes)} {P Q : Str → Prop}
    (h : (E.map Prod.fst).Nodup ∧ ∀ k ∈ E.map Prod.fst, P k)
    (himp : ∀ k, P k → Q k) :
    (E.map Prod.fst).Nodup ∧ ∀ k ∈ E.map Prod.fst, Q k :=
  ⟨h.1, fun k hk => himp k (h.2 k hk)⟩

theorem step_event {key : Str} {r : RunRes} {P Q : Str → Prop} (rest : FrameOut)
    (hkey : P key)
    (hrest : (rest.events.map Prod.fst).Nodup ∧ ∀ k ∈ rest.events.map Prod.fst, Q k)
    (hdisj : ∀ k, P k → Q k → False) :
    ((withEvent (key, r) rest).events.map Prod.fst).Nodup
      ∧ ∀ k ∈ (withEvent (key, r) rest).events.map Prod.fst, P k ∨ Q k := by
  simp only [withEvent, List.map_cons, List.nodup_cons, List.mem_cons]
  refine ⟨⟨fun hk => hdisj key hkey (hrest.2 key hk), hrest.1⟩, ?_⟩
  intro k hk
  rcases hk with rfl | hk
  · exact Or.inl hkey
  · exact Or.inr (hrest.2 k hk)

theorem step_frame {name : Str} {P Q : Str → Prop} (o rest : FrameOut)
    (ho : (o.events.map Prod.fst).Nodup ∧ ∀ k ∈ o.events.map Prod.fst, P k)
    (hrest : (rest.events.map Prod.fst).Nodup ∧ ∀ k ∈ rest.events.map Prod.fst, Q k)
    (hdisj : ∀ k, P k → Q k → False) :
    ((afterFrame name o rest).events.map Prod.fst).Nodup
      ∧ ∀ k ∈ (afterFrame name o rest).events.map Prod.fst, P k ∨ Q k := by
  have he := afterFrame_events name o rest
  rw [he]
  split
  · exact ⟨ho.1, fun k hk => Or.inl (ho.2 k hk)⟩
  · rw [List.map_append]
    constructor
    · exact nodup_glue ho.1 hrest.1 ho.2 hrest.2 hdisj
    · intro k hk
      rcases List.mem_append.mp hk with h | h
      · exact Or.inl (ho.2 k h)
      · exact Or.inr (hrest.2 k h)

theorem merge_disj {α : Type} {name : Str} {head : TreeM α} {es as : List (TreeM α)}
    (hsegH : segOk head.nameOf)
    (hsegs : ∀ c, c ∈ es ∨ c ∈ as → segOk c.nameOf)
    (hnames : ∀ c, c ∈ es ∨ c ∈ as → head.isLeaf = c.isLeaf → head.nameOf ≠ c.nameOf) :
    ∀ k, classOf name head k → C8Cls (.merge name es as) k → False := by
  intro k hk hc
  obtain ⟨c, hcm, hck⟩ := clsMerge_iff.mp hc
  exact classOf_disjoint hsegH (hsegs c hcm) (hnames c hcm) hk hck

theorem list_disj {α : Type} {name : Str} {head : TreeM α} {cs : List (TreeM α)}
    (hsegH : segOk head.nameOf)
    (hsegs : ∀ c ∈ cs, segOk c.nameOf)
    (hnames : ∀ c ∈ cs, head.isLeaf = c.isLeaf → head.nameOf ≠ c.nameOf) :
    ∀ k, classOf name head k → (∃ c ∈ cs, classOf name c k) → False := by
  intro k hk hc
  obtain ⟨c, hcm, hck⟩ := hc
  exact classOf_disjoint hsegH (hsegs c hcm) (hnames c hcm) hk hck

theorem cls_drop_left {α : Type} {name : Str} {x : TreeM α} {es as : List (TreeM α)}
    {k : Str} (h : C8Cls (.merge name es as) k) : C8Cls (.merge name (x :: es) as) k := by
  obtain ⟨c, hc, hck⟩ := clsMerge_iff.mp h
  refine clsMerge_iff.mpr ⟨c, ?_, hck⟩
  rcases hc with hc | hc
  · exact Or.inl (List.mem_cons_of_mem x hc)
  · exact Or.inr hc

theorem cls_drop_right {α : Type} {name : Str} {x : TreeM α} {es as : List (TreeM α)}
    {k : Str} (h : C8Cls (.merge name es as) k) : C8Cls (.merge name es (x :: as)) k := by
  obtain ⟨c, hc, hck⟩ := clsMerge_iff.mp h
  refine clsMerge_iff.mpr ⟨c, ?_, hck⟩
  rcases hc with hc | hc
  · exact Or.inl hc
  · exact Or.inr (List.mem_cons_of_mem x hc)

theorem cls_head_left {α : Type} {name : Str} {x : TreeM α} {es as : List (TreeM α)}
    {k : Str} (h : classOf name x k) : C8Cls (.merge name (x :: es) as) k :=
  clsMerge_iff.mpr ⟨x, Or.inl (List.mem_cons_self x es), h⟩

theorem cls_head_right {α : Type} {name : Str} {x : TreeM α} {es as : List (TreeM α)}
    {k : Str} (h : classOf name x k) : C8Cls (.merge name es (x :: as)) k :=
  clsMerge_iff.mpr ⟨x, Or.inr (List.mem_cons_self x as), h⟩

theorem leaf_class {α : Type} (name ln : Str) (lv : α) :
    classOf name (.leaf ln lv) (appendName name ln) := by
  simp [classOf, TreeM.isLeaf, TreeM.nameOf]

theorem trav_bad_left {α : Type} (ds : List (DiffReportM α)) (name bn : Str)
    (a : Option (TreeM α)) :
    trav ds (.inner name (some (.badNode bn)) a) = ⟨[], true, name⟩ := by
  rw [trav]

theorem trav_bad_right {α : Type} (ds : List (DiffReportM α)) (name bn : Str) :
    trav ds (.inner name none (some (.badNode bn))) = ⟨[], true, name⟩ := by
  rw [trav]

theorem trav_node_bad {α : Type} (ds : List (DiffReportM α)) (name en bn : Str)
    (ecs : List (TreeM α)) :
    trav ds (.inner name (some (.node en ecs)) (some (.badNode bn))) = ⟨[], true, name⟩ := by
  rw [trav]

theorem innerPost_to_class {α : Type} {ds : List (DiffReportM α)} {name : Str}
    {c : TreeM α} (hseg : segOk c.nameOf) (hleaf : c.isLeaf = false)
    {e a : Option (TreeM α)}
    (ho : ((trav ds (.inner (appendName name c.nameOf) e a)).events.map Prod.fst).Nodup
      ∧ ∀ k ∈ (trav ds (.inner (appendName name c.nameOf) e a)).events.map Prod.fst,
          C8Cls (.inner (appendName name c.nameOf) e a) k) :
    ((trav ds (.inner (appendName name c.nameOf) e a)).events.map Prod.fst).Nodup
      ∧ ∀ k ∈ (trav ds (.inner (appendName name c.nameOf) e a)).events.map Prod.fst,
          classOf name c k :=
  ⟨ho.1, fun k hk => innerKeys_class hseg c hleaf rfl (clsInner_iff.mp (ho.2 k hk))⟩

theorem trav_keys {α : Type} (ds : List (DiffReportM α)) (c : TravCall α) :
    C8Pre c → ((trav ds c).events.map Prod.fst).Nodup
      ∧ ∀ k ∈ (trav ds c).events.map Prod.fst, C8Cls c k := by
  induction c using trav.induct ds
  case case1 nm en ecs an acs ih =>
    intro hpre
    have he : TreeOk (.node en ecs) := hpre.1 _ rfl
    have ha : TreeOk (.node an acs) := hpre.2 _ rfl
    rw [trav]
    refine post_mono (ih (preMerge_iff.mpr ⟨sideOkP_sort he, sideOkP_sort ha⟩)) ?_
    intro k hk
    obtain ⟨c, hc, hck⟩ := clsMerge_iff.mp hk
    refine clsInner_iff.mpr ?_
    rcases hc with hc | hc
    · exact class_innerPost ((sideOkP_sort he).2.2 c hc).1 hck
    · exact class_innerPost ((sideOkP_sort ha).2.2 c hc).1 hck
  case case2 nm bn act =>
    intro _
    rw [trav]
    simp
  case case3 nm en cs an =>
    intro _
    rw [trav]
    simp
  case case4 nm en ecs ih =>
    intro hpre
    have he : TreeOk (.node en ecs) := hpre.1 _ rfl
    rw [trav]
    refine post_mono (ih (listOkP_of_node he)) ?_
    intro k hk
    obtain ⟨c, hc, hck⟩ := clsDel_iff.mp hk
    exact clsInner_iff.mpr (class_innerPost ((listOkP_of_node he).2 c hc).1 hck)
  case case5 nm an acs ih =>
    intro hpre
    have ha : TreeOk (.node an acs) := hpre.2 _ rfl
    rw [trav]
    refine post_mono (ih (listOkP_of_node ha)) ?_
    intro k hk
    obtain ⟨c, hc, hck⟩ := clsAdd_iff.mp hk
    exact clsInner_iff.mpr (class_innerPost ((listOkP_of_node ha).2 c hc).1 hck)
  case case6 nm bn =>
    intro _
    rw [trav]
    simp
  case case7 =>
    intro _
    simp_all [trav]
  case case8 nm =>
    intro _
    rw [trav]
    simp
  case case9 nm eln elv es aln alv aas h ih =>
    intro hpre
    obtain ⟨hE, hA⟩ := preMerge_iff.mp hpre
    rw [trav, if_pos h, take_appendName]
    rw [take_appendName] at ih
    have hrest := ih (preMerge_iff.mpr ⟨sideOkP_cons hE, hA⟩)
    have hcc : childCmp (TreeM.leaf eln elv) (TreeM.leaf aln alv) = .lt := by
      simp only [childCmp, TreeM.isLeaf, TreeM.nameOf]
      exact h
    have hdisj : ∀ k, classOf nm (TreeM.leaf eln elv) k →
        C8Cls (.merge nm es (TreeM.leaf aln alv :: aas)) k → False := by
      refine merge_disj (hE.2.2 _ (List.mem_cons_self _ _)).1 ?_ ?_
      · rintro c (hc | hc)
        · exact ((listOkP_cons hE.2).2 c hc).1
        · exact (hA.2.2 c hc).1
      · rintro c (hc | hc)
        · exact fun _ => listOkP_head_ne hE.2 c hc
        · exact cross_lt_ne hcc hA.1 c hc
    refine post_mono (step_event _ (leaf_class nm eln elv) hrest hdisj) ?_
    intro k hk
    rcases hk with hk | hk
    · exact cls_head_left hk
    · exact cls_drop_left hk
  case case10 nm eln elv es aln alv aas h1 h2 ih =>
    intro hpre
    obtain ⟨hE, hA⟩ := preMerge_iff.mp hpre
    have heq := strCmp_eq h2
    subst heq
    rw [trav, if_neg h1, if_pos h2, take_appendName]
    rw [take_appendName] at ih
    have hrest := ih (preMerge_iff.mpr ⟨sideOkP_cons hE, sideOkP_cons hA⟩)
    have hdisj : ∀ k, classOf nm (TreeM.leaf eln elv) k →
        C8Cls (.merge nm es aas) k → False := by
      refine merge_disj (hE.2.2 _ (List.mem_cons_self _ _)).1 ?_ ?_
      · rintro c (hc | hc)
        · exact ((listOkP_cons hE.2).2 c hc).1
        · exact ((listOkP_cons hA.2).2 c hc).1
      · rintro c (hc | hc)
        · exact fun _ => listOkP_head_ne hE.2 c hc
        · exact fun _ => listOkP_head_ne hA.2 c hc
    refine post_mono (step_event _ (leaf_class nm eln elv) hrest hdisj) ?_
    intro k hk
    rcases hk with hk | hk
    · exact cls_head_left hk
    · exact cls_drop_left (cls_drop_right hk)
  case case11 nm eln elv es aln alv aas h1 h2 ih =>
    intro hpre
    obtain ⟨hE, hA⟩ := preMerge_iff.mp hpre
    have hgt : strCmp eln aln = .gt := by
      cases ho : strCmp eln aln
      · exact absurd ho h1
      · exact absurd ho h2
      · rfl
    have hlt : strCmp aln eln = .lt := by
      rw [strCmp_swap eln aln, hgt]
      rfl
    rw [trav, if_neg h1, if_neg h2, take_appendName]
    rw [take_appendName] at ih
    have hrest := ih (preMerge_iff.mpr ⟨hE, sideOkP_cons hA⟩)
    have hcc : childCmp (TreeM.leaf aln alv) (TreeM.leaf eln elv) = .lt := by
      simp only [childCmp, TreeM.isLeaf, TreeM.nameOf]
      exact hlt
    have hdisj : ∀ k, classOf nm (TreeM.leaf aln alv) k →
        C8Cls (.merge nm (TreeM.leaf eln elv :: es) aas) k → False := by
      refine merge_disj (hA.2.2 _ (List.mem_cons_self _ _)).1 ?_ ?_
      · rintro c (hc | hc)
        · exact (hE.2.2 c hc).1
        · exact ((listOkP_cons hA.2).2 c hc).1
      · rintro c (hc | hc)
        · exact cross_lt_ne hcc hE.1 c hc
        · exact fun _ => listOkP_head_ne hA.2 c hc
    refine post_mono (step_event _ (leaf_class nm aln alv) hrest hdisj) ?_
    intro k hk
    rcases hk with hk | hk
    · exact cls_head_right hk
    · exact cls_drop_right hk
  case case12 nm eln elv es an acs aas ih2 ih1 =>
    intro hpre
    obtain ⟨hE, hA⟩ := preMerge_iff.mp hpre
    have hAh := hA.2.2 _ (List.mem_cons_self _ _)
    rw [trav]
    simp only [trav_acc, travName, take_appendName] at ih1 ⊢
    have hoP := innerPost_to_class hAh.1 rfl (ih2 (preInner_right hAh.2))
    have hrest := ih1 (preMerge_iff.mpr ⟨hE, sideOkP_cons hA⟩)
    have hleaves := leaf_head_leaves hE.1 rfl
    have hdisj : ∀ k, classOf nm (TreeM.node an acs) k →
        C8Cls (.merge nm (TreeM.leaf eln elv :: es) aas) k → False := by
      refine merge_disj hAh.1 ?_ ?_
      · rintro c (hc | hc)
        · exact (hE.2.2 c hc).1
        · exact ((listOkP_cons hA.2).2 c hc).1
      · rintro c (hc | hc)
        · intro hk
          have hct : c.isLeaf = true := by
            rcases List.mem_cons.mp hc with rfl | hc'
            · rfl
            · exact hleaves c hc'
          rw [hct] at hk
          simp [TreeM.isLeaf] at hk
        · exact fun _ => listOkP_head_ne hA.2 c hc
    refine post_mono (step_frame _ _ hoP hrest hdisj) ?_
    intro k hk
    rcases hk with hk | hk
    · exact cls_head_right hk
    · exact cls_drop_right hk
  case case13 nm eln elv es an aas ih2 ih1 =>
    intro _
    rw [trav, trav_bad_right]
    simp [afterFrame]
  case case14 nm en ecs es aln alv aas ih2 ih1 =>
    intro hpre
    obtain ⟨hE, hA⟩ := preMerge_iff.mp hpre
    have hEh := hE.2.2 _ (List.mem_cons_self _ _)
    rw [trav]
    simp only [trav_acc, travName, take_appendName] at ih1 ⊢
    have hoP := innerPost_to_class hEh.1 rfl (ih2 (preInner_left hEh.2))
    have hrest := ih1 (preMerge_iff.mpr ⟨sideOkP_cons hE, hA⟩)
    have hleaves := leaf_head_leaves hA.1 rfl
    have hdisj : ∀ k, classOf nm (TreeM.node en ecs) k →
        C8Cls (.merge nm es (TreeM.leaf aln alv :: aas)) k → False := by
      refine merge_disj hEh.1 ?_ ?_
      · rintro c (hc | hc)
        · exact ((listOkP_cons hE.2).2 c hc).1
        · exact (hA.2.2 c hc).1
      · rintro c (hc | hc)
        · exact fun _ => listOkP_head_ne hE.2 c hc
        · intro hk
          have hct : c.isLeaf = true := by
            rcases List.mem_cons.mp hc with rfl | hc'
            · rfl
            · exact hleaves c hc'
          rw [hct] at hk
          simp [TreeM.isLeaf] at hk
    refine post_mono (step_frame _ _ hoP hrest hdisj) ?_
    intro k hk
    rcases hk with hk | hk
    · exact cls_head_left hk
    · exact cls_drop_left hk
  case case15 nm en es aln alv aas ih2 ih1 =>
    intro _
    rw [trav, trav_bad_left]
    simp [afterFrame]
  case case16 nm en ecs es an acs aas h ih2 ih1 =>
    intro hpre
    obtain ⟨hE, hA⟩ := preMerge_iff.mp hpre
    have hEh := hE.2.2 _ (List.mem_cons_self _ _)
    rw [trav, if_pos h]
    simp only [trav_acc, travName, take_appendName] at ih1 ⊢
    have hoP := innerPost_to_class hEh.1 rfl (ih2 (preInner_left hEh.2))
    have hrest := ih1 (preMerge_iff.mpr ⟨sideOkP_cons hE, hA⟩)
    have hcc : childCmp (TreeM.node en ecs) (TreeM.node an acs) = .lt := by
      simp only [childCmp, TreeM.isLeaf, TreeM.nameOf]
      exact h
    have hdisj : ∀ k, classOf nm (TreeM.node en ecs) k →
        C8Cls (.merge nm es (TreeM.node an acs :: aas)) k → False := by
      refine merge_disj hEh.1 ?_ ?_
      · rintro c (hc | hc)
        · exact ((listOkP_cons hE.2).2 c hc).1
        · exact (hA.2.2 c hc).1
      · rintro c (hc | hc)
        · exact fun _ => listOkP_head_ne hE.2 c hc
        · exact cross_lt_ne hcc hA.1 c hc
    refine post_mono (step_frame _ _ hoP hrest hdisj) ?_
    intro k hk
    rcases hk with hk | hk
    · exact cls_head_left hk
    · exact cls_drop_left hk
  case case17 nm en ecs es an acs aas h1 h2 ih2 ih1 =>
    intro hpre
    obtain ⟨hE, hA⟩ := preMerge_iff.mp hpre
    have heq := strCmp_eq h2
    subst heq
    have hEh := hE.2.2 _ (List.mem_cons_self _ _)
    have hAh := hA.2.2 _ (List.mem_cons_self _ _)
    rw [trav, if_neg h1, if_pos h2]
    simp only [trav_acc, travName, take_appendName] at ih1 ⊢
    have hoP := innerPost_to_class hEh.1 rfl (ih2 (preInner_both hEh.2 hAh.2))
    have hrest := ih1 (preMerge_iff.mpr ⟨sideOkP_cons hE, sideOkP_cons hA⟩)
    have hdisj : ∀ k, classOf nm (TreeM.node en ecs) k →
        C8Cls (.merge nm es aas) k → False := by
      refine merge_disj hEh.1 ?_ ?_
      · rintro c (hc | hc)
        · exact ((listOkP_cons hE.2).2 c hc).1
        · exact ((listOkP_cons hA.2).2 c hc).1
      · rintro c (hc | hc)
        · exact fun _ => listOkP_head_ne hE.2 c hc
        · exact fun _ => listOkP_head_ne hA.2 c hc
    refine post_mono (step_frame _ _ hoP hrest hdisj) ?_
    intro k hk
    rcases hk with hk | hk
    · exact cls_head_left hk
    · exact cls_drop_left (cls_drop_right hk)
  case case18 nm en ecs es an acs aas h1 h2 ih2 ih1 =>
    intro hpre
    obtain ⟨hE, hA⟩ := preMerge_iff.mp hpre
    have hgt : strCmp en an = .gt := by
      cases ho : strCmp en an
      · exact absurd ho h1
      · exact absurd ho h2
      · rfl
    have hlt : strCmp an en = .lt := by
      rw [strCmp_swap en an, hgt]
      rfl
    have hAh := hA.2.2 _ (List.mem_cons_self _ _)
    rw [trav, if_neg h1, if_neg h2]
    simp only [trav_acc, travName, take_appendName] at ih1 ⊢
    have hoP := innerPost_to_class hAh.1 rfl (ih2 (preInner_right hAh.2))
    have hrest := ih1 (preMerge_iff.mpr ⟨hE, sideOkP_cons hA⟩)
    have hcc : childCmp (TreeM.node an acs) (TreeM.node en ecs) = .lt := by
      simp only [childCmp, TreeM.isLeaf, TreeM.nameOf]
      exact hlt
    have hdisj : ∀ k, classOf nm (TreeM.node an acs) k →
        C8Cls (.merge nm (TreeM.node en ecs :: es) aas) k → False := by
      refine merge_disj hAh.1 ?_ ?_
      · rintro c (hc | hc)
        · exact (hE.2.2 c hc).1
        · exact ((listOkP_cons hA.2).2 c hc).1
      · rintro c (hc | hc)
        · exact cross_lt_ne hcc hE.1 c hc
        · exact fun _ => listOkP_head_ne hA.2 c hc
    refine post_mono (step_frame _ _ hoP hrest hdisj) ?_
    intro k hk
    rcases hk with hk | hk
    · exact cls_head_right hk
    · exact cls_drop_right hk
  case case19 nm en ecs es an aas h ih2 ih1 =>
    intro hpre
    obtain ⟨hE, hA⟩ := preMerge_iff.mp hpre
    have hEh := hE.2.2 _ (List.mem_cons_self _ _)
    rw [trav, if_pos h]
    simp only [trav_acc, travName, take_appendName] at ih1 ⊢
    have hoP := innerPost_to_class hEh.1 rfl (ih2 (preInner_left hEh.2))
    have hrest := ih1 (preMerge_iff.mpr ⟨sideOkP_cons hE, hA⟩)
    have hcc : childCmp (TreeM.node en ecs) (TreeM.badNode an) = .lt := by
      simp only [childCmp, TreeM.isLeaf, TreeM.nameOf]
      exact h
    have hdisj : ∀ k, classOf nm (TreeM.node en ecs) k →
        C8Cls (.merge nm es (TreeM.badNode an :: aas)) k → False := by
      refine merge_disj hEh.1 ?_ ?_
      · rintro c (hc | hc)
        · exact ((listOkP_cons hE.2).2 c hc).1
        · exact (hA.2.2 c hc).1
      · rintro c (hc | hc)
        · exact fun _ => listOkP_head_ne hE.2 c hc
        · exact cross_lt_ne hcc hA.1 c hc
    refine post_mono (step_frame _ _ hoP hrest hdisj) ?_
    intro k hk
    rcases hk with hk | hk
    · exact cls_head_left hk
    · exact cls_drop_left hk
  case case20 nm en ecs es an aas h1 h2 ih2 ih1 =>
    intro _
    rw [trav, if_neg h1, if_pos h2, trav_node_bad]
    simp [afterFrame]
  case case21 nm en ecs es an aas h1 h2 ih2 ih1 =>
    intro _
    rw [trav, if_neg h1, if_neg h2, trav_bad_right]
    simp [afterFrame]
  case case22 nm en es an acs aas h ih2 ih1 =>
    intro _
    rw [trav, if_pos h, trav_bad_left]
    simp [afterFrame]
  case case23 nm en es an acs aas h1 h2 ih2 ih1 =>
    intro _
    rw [trav, if_neg h1, if_pos h2, trav_bad_left]
    simp [afterFrame]
  case case24 nm en es an acs aas h1 h2 ih2 ih1 =>
    intro hpre
    obtain ⟨hE, hA⟩ := preMerge_iff.mp hpre
    have hgt : strCmp en an = .gt := by
      cases ho : strCmp en an
      · exact absurd ho h1
      · exact absurd ho h2
      · rfl
    have hlt : strCmp an en = .lt := by
      rw [strCmp_swap en an, hgt]
      rfl
    have hAh := hA.2.2 _ (List.mem_cons_self _ _)
    rw [trav, if_neg h1, if_neg h2]
    simp only [trav_acc, travName, take_appendName] at ih1 ⊢
    have hoP := innerPost_to_class hAh.1 rfl (ih2 (preInner_right hAh.2))
    have hrest := ih1 (preMerge_iff.mpr ⟨hE, sideOkP_cons hA⟩)
    have hcc : childCmp (TreeM.node an acs) (TreeM.badNode en) = .lt := by
      simp only [childCmp, TreeM.isLeaf, TreeM.nameOf]
      exact hlt
    have hdisj : ∀ k, classOf nm (TreeM.node an acs) k →
        C8Cls (.merge nm (TreeM.badNode en :: es) aas) k → False := by
      refine merge_disj hAh.1 ?_ ?_
      · rintro c (hc | hc)
        · exact (hE.2.2 c hc).1
        · exact ((listOkP_cons hA.2).2 c hc).1
      · rintro c (hc | hc)
        · exact cross_lt_ne hcc hE.1 c hc
        · exact fun _ => listOkP_head_ne hA.2 c hc
    refine post_mono (step_frame _ _ hoP hrest hdisj) ?_
    intro k hk
    rcases hk with hk | hk
    · exact cls_head_right hk
    · exact cls_drop_right hk
  case case25 nm en es an aas h ih2 ih1 =>
    intro _
    rw [trav, if_pos h, trav_bad_left]
    simp [afterFrame]
  case case26 nm en es an aas h1 h2 ih2 ih1 =>
    intro _
    rw [trav, if_neg h1, if_pos h2, trav_bad_left]
    simp [afterFrame]
  case case27 nm en es an aas h1 h2 ih2 ih1 =>
    intro _
    rw [trav, if_neg h1, if_neg h2, trav_bad_right]
    simp [afterFrame]
  case case28 nm ln lv es ih =>
    intro hpre
    obtain ⟨hE, hA⟩ := preMerge_iff.mp hpre
    rw [trav, take_appendName]
    rw [take_appendName] at ih
    have hrest := ih (preMerge_iff.mpr ⟨sideOkP_cons hE, hA⟩)
    have hdisj : ∀ k, classOf nm (TreeM.leaf ln lv) k →
        C8Cls (.merge nm es ([] : List (TreeM α))) k → False := by
      refine merge_disj (hE.2.2 _ (List.mem_cons_self _ _)).1 ?_ ?_
      · rintro c (hc | hc)
        · exact ((listOkP_cons hE.2).2 c hc).1
        · exact absurd hc (List.not_mem_nil c)
      · rintro c (hc | hc)
        · exact fun _ => listOkP_head_ne hE.2 c hc
        · exact absurd hc (List.not_mem_nil c)
    refine post_mono (step_event _ (leaf_class nm ln lv) hrest hdisj) ?_
    intro k hk
    rcases hk with hk | hk
    · exact cls_head_left hk
    · exact cls_drop_left hk
  case case29 nm en ecs es ih2 ih1 =>
    intro hpre
    obtain ⟨hE, hA⟩ := preMerge_iff.mp hpre
    have hEh := hE.2.2 _ (List.mem_cons_self _ _)
    rw [trav]
    simp only [trav_acc, travName, take_appendName] at ih1 ⊢
    have hoP := innerPost_to_class hEh.1 rfl (ih2 (preInner_left hEh.2))
    have hrest := ih1 (preMerge_iff.mpr ⟨sideOkP_cons hE, hA⟩)
    have hdisj : ∀ k, classOf nm (TreeM.node en ecs) k →
        C8Cls (.merge nm es ([] : List (TreeM α))) k → False := by
      refine merge_disj hEh.1 ?_ ?_
      · rintro c (hc | hc)
        · exact ((listOkP_cons hE.2).2 c hc).1
        · exact absurd hc (List.not_mem_nil c)
      · rintro c (hc | hc)
        · exact fun _ => listOkP_head_ne hE.2 c hc
        · exact absurd hc (List.not_mem_nil c)
    refine post_mono (step_frame _ _ hoP hrest hdisj) ?_
    intro k hk
    rcases hk with hk | hk
    · exact cls_head_left hk
    · exact cls_drop_left hk
  case case30 nm en es ih2 ih1 =>
    intro _
    rw [trav, trav_bad_left]
    simp [afterFrame]
  case case31 nm ln lv aas ih =>
    intro hpre
    obtain ⟨hE, hA⟩ := preMerge_iff.mp hpre
    rw [trav, take_appendName]
    rw [take_appendName] at ih
    have hrest := ih (preMerge_iff.mpr ⟨hE, sideOkP_cons hA⟩)
    have hdisj : ∀ k, classOf nm (TreeM.leaf ln lv) k →
        C8Cls (.merge nm ([] : List (TreeM α)) aas) k → False := by
      refine merge_disj (hA.2.2 _ (List.mem_cons_self _ _)).1 ?_ ?_
      · rintro c (hc | hc)
        · exact absurd hc (List.not_mem_nil c)
        · exact ((listOkP_cons hA.2).2 c hc).1
      · rintro c (hc | hc)
        · exact absurd hc (List.not_mem_nil c)
        · exact fun _ => listOkP_head_ne hA.2 c hc
    refine post_mono (step_event _ (leaf_class nm ln lv) hrest hdisj) ?_
    intro k hk
    rcases hk with hk | hk
    · exact cls_head_right hk
    · exact cls_drop_right hk
  case case32 nm an acs aas ih2 ih1 =>
    intro hpre
    obtain ⟨hE, hA⟩ := preMerge_iff.mp hpre
    have hAh := hA.2.2 _ (List.mem_cons_self _ _)
    rw [trav]
    simp only [trav_acc, travName, take_appendName] at ih1 ⊢
    have hoP := innerPost_to_class hAh.1 rfl (ih2 (preInner_right hAh.2))
    have hrest := ih1 (preMerge_iff.mpr ⟨hE, sideOkP_cons hA⟩)
    have hdisj : ∀ k, classOf nm (TreeM.node an acs) k →
        C8Cls (.merge nm ([] : List (TreeM α)) aas) k → False := by
      refine merge_disj hAh.1 ?_ ?_
      · rintro c (hc | hc)
        · exact absurd hc (List.not_mem_nil c)
        · exact ((listOkP_cons hA.2).2 c hc).1
      · rintro c (hc | hc)
        · exact absurd hc (List.not_mem_nil c)
        · exact fun _ => listOkP_head_ne hA.2 c hc
    refine post_mono (step_frame _ _ hoP hrest hdisj) ?_
    intro k hk
    rcases hk with hk | hk
    · exact cls_head_right hk
    · exact cls_drop_right hk
  case case33 nm an aas ih2 ih1 =>
    intro _
    rw [trav, trav_bad_right]
    simp [afterFrame]
  case case34 nm =>
    intro _
    rw [trav]
    simp
  case case35 nm ln lv cs ih =>
    intro hpre
    have hl : listOkP (TreeM.leaf ln lv :: cs) := hpre
    rw [trav, take_appendName]
    rw [take_appendName] at ih
    have hrest := ih (listOkP_cons hl)
    have hdisj : ∀ k, classOf nm (TreeM.leaf ln lv) k →
        C8Cls (.delOnly nm cs) k → False := by
      intro k hk hc
      obtain ⟨c, hc', hck⟩ := clsDel_iff.mp hc
      exact classOf_disjoint (hl.2 _ (List.mem_cons_self _ _)).1
        ((listOkP_cons hl).2 c hc').1 (fun _ => listOkP_head_ne hl c hc') hk hck
    refine post_mono (step_event _ (leaf_class nm ln lv) hrest hdisj) ?_
    intro k hk
    rcases hk with hk | hk
    · exact clsDel_iff.mpr ⟨_, List.mem_cons_self _ _, hk⟩
    · obtain ⟨c, hc, hck⟩ := clsDel_iff.mp hk
      exact clsDel_iff.mpr ⟨c, List.mem_cons_of_mem _ hc, hck⟩
  case case36 nm en ecs cs ih2 ih1 =>
    intro hpre
    have hl : listOkP (TreeM.node en ecs :: cs) := hpre
    have hh := hl.2 _ (List.mem_cons_self _ _)
    rw [trav]
    simp only [trav_acc, travName, take_appendName] at ih1 ⊢
    have hoP := innerPost_to_class hh.1 rfl (ih2 (preInner_left hh.2))
    have hrest := ih1 (listOkP_cons hl)
    have hdisj : ∀ k, classOf nm (TreeM.node en ecs) k →
        C8Cls (.delOnly nm cs) k → False := by
      intro k hk hc
      obtain ⟨c, hc', hck⟩ := clsDel_iff.mp hc
      exact classOf_disjoint hh.1 ((listOkP_cons hl).2 c hc').1
        (fun _ => listOkP_head_ne hl c hc') hk hck
    refine post_mono (step_frame _ _ hoP hrest hdisj) ?_
    intro k hk
    rcases hk with hk | hk
    · exact clsDel_iff.mpr ⟨_, List.mem_cons_self _ _, hk⟩
    · obtain ⟨c, hc, hck⟩ := clsDel_iff.mp hk
      exact clsDel_iff.mpr ⟨c, List.mem_cons_of_mem _ hc, hck⟩
  case case37 nm en cs ih2 ih1 =>
    intro _
    rw [trav, trav_bad_left]
    simp [afterFrame]
  case case38 nm =>
    intro _
    rw [trav]
    simp
  case case39 nm ln lv cs ih =>
    intro hpre
    have hl : listOkP (TreeM.leaf ln lv :: cs) := hpre
    rw [trav, take_appendName]
    rw [take_appendName] at ih
    have hrest := ih (listOkP_cons hl)
    have hdisj : ∀ k, classOf nm (TreeM.leaf ln lv) k →
        C8Cls (.addOnly nm cs) k → False := by
      intro k hk hc
      obtain ⟨c, hc', hck⟩ := clsAdd_iff.mp hc
      exact classOf_disjoint (hl.2 _ (List.mem_cons_self _ _)).1
        ((listOkP_cons hl).2 c hc').1 (fun _ => listOkP_head_ne hl c hc') hk hck
    refine post_mono (step_event _ (leaf_class nm ln lv) hrest hdisj) ?_
    intro k hk
    rcases hk with hk | hk
    · exact clsAdd_iff.mpr ⟨_, List.mem_cons_self _ _, hk⟩
    · obtain ⟨c, hc, hck⟩ := clsAdd_iff.mp hk
      exact clsAdd_iff.mpr ⟨c, List.mem_cons_of_mem _ hc, hck⟩
  case case40 nm en ecs cs ih2 ih1 =>
    intro hpre
    have hl : listOkP (TreeM.node en ecs :: cs) := hpre
    have hh := hl.2 _ (List.mem_cons_self _ _)
    rw [trav]
    simp only [trav_acc, travName, take_appendName] at ih1 ⊢
    have hoP := innerPost_to_class hh.1 rfl (ih2 (preInner_left hh.2))
    have hrest := ih1 (listOkP_cons hl)
    have hdisj : ∀ k, classOf nm (TreeM.node en ecs) k →
        C8Cls (.addOnly nm cs) k → False := by
      intro k hk hc
      obtain ⟨c, hc', hck⟩ := clsAdd_iff.mp hc
      exact classOf_disjoint hh.1 ((listOkP_cons hl).2 c hc').1
        (fun _ => listOkP_head_ne hl c hc') hk hck
    refine post_mono (step_frame _ _ hoP hrest hdisj) ?_
    intro k hk
    rcases hk with hk | hk
    · exact clsAdd_iff.mpr ⟨_, List.mem_cons_self _ _, hk⟩
    · obtain ⟨c, hc, hck⟩ := clsAdd_iff.mp hk
      exact clsAdd_iff.mpr ⟨c, List.mem_cons_of_mem _ hc, hck⟩
  case case41 nm en cs ih2 ih1 =>
    intro _
    rw [trav, trav_bad_left]
    simp [afterFrame]

/-- C8: under the precondition that within each node the children's names are
unique and every name is a nonempty single path segment containing no `'/'`
(`TreeOk`), every report key is recorded at most once per traversal run —
the keys of the emitted leaf events are pairwise distinct — so the
duplicate-insertion assertion in `JsonReport::insert_entry` can never fire. -/
theorem c8_report_keys_unique {α : Type} (ds : List (DiffReportM α)) (e a : TreeM α)
    (he : TreeOk e) (ha : TreeOk a) :
    ((calc_diff ds e a).events.map Prod.fst).Nodup := by
  rw [calc_diff]
  exact (trav_keys ds (.inner [] (some e) (some a))
    ⟨fun t ht => Option.some.inj ht ▸ he, fun t ht => Option.some.inj ht ▸ ha⟩).1

theorem c8_witness :
    ((calc_diff [probeDiffer]
        (TreeM.node [] [TreeM.leaf ['x'] 1, TreeM.node ['d'] [TreeM.leaf ['y'] 2]])
        (TreeM.node [] [TreeM.leaf ['x'] 3])).events.map Prod.fst).Nodup := by
  have hd : TreeOk (TreeM.node ['d'] [TreeM.leaf ['y'] (2 : Nat)]) := by
    refine TreeOk.node _ _ (by decide) ?_ ?_
    · intro c hc
      simp only [List.mem_singleton] at hc
      subst hc
      exact ⟨by decide, by decide⟩
    · intro c hc
      simp only [List.mem_singleton] at hc
      subst hc
      exact TreeOk.leaf _ _
  have he : TreeOk (TreeM.node []
      [TreeM.leaf ['x'] (1 : Nat), TreeM.node ['d'] [TreeM.leaf ['y'] 2]]) := by
    refine TreeOk.node _ _ (by decide) ?_ ?_
    · intro c hc
      rcases List.mem_cons.mp hc with rfl | hc
      · exact ⟨by decide, by decide⟩
      · simp only [List.mem_singleton] at hc
        subst hc
        exact ⟨by decide, by decide⟩
    · intro c hc
      rcases List.mem_cons.mp hc with rfl | hc
      · exact TreeOk.leaf _ _
      · simp only [List.mem_singleton] at hc
        subst hc
        exact hd
  have ha : TreeOk (TreeM.node [] [TreeM.leaf ['x'] (3 : Nat)]) := by
    refine TreeOk.node _ _ (by decide) ?_ ?_
    · intro c hc
      simp only [List.mem_singleton] at hc
      subst hc
      exact ⟨by decide, by decide⟩
    · intro c hc
      simp only [List.mem_singleton] at hc
      subst hc
      exact TreeOk.leaf _ _
  exact c8_report_keys_unique [probeDiffer] _ _ he ha
